import Mathlib

/-!
Shallow embedding of the zkWasm witness-generation layer:
`crates/zkwasm/src/circuits/utils/table_entry.rs` (memory consistency
resolver, finalize counting, interval lookup) and
`crates/zkwasm/src/circuits/etable/assign.rs` (sequential status fold,
terminal assertions, capacity padding), together with the checkpoint record
of `crates/specs/src/state.rs`.

Machine integers: `u32` values are carried as `Nat`; where the source
performs `u32` arithmetic that can wrap, we use the explicit wrapping
operations below.  `BigUint` values are carried as plain `Nat` (unbounded),
with `BigUint` subtraction (which panics when the result would be negative)
modelled as a fallible operation.
-/

/-- `2^32`; `u32` arithmetic wraps at this bound. -/
def u32Size : Nat := 4294967296

/-- `u32::MAX`. -/
def u32Max : Nat := 4294967295

/-- Wrapping `u32` addition. -/
def wadd (a b : Nat) : Nat := (a + b) % u32Size

/-- Wrapping `u32` subtraction. -/
def wsub (a b : Nat) : Nat := (a + u32Size - b % u32Size) % u32Size

/-- Modelled from the spec: `LocationType` of the `specs` crate (the kind of
memory cell: stack slot, linear (heap) memory, or global); the crate file
defining it is not part of the provided sources.  Spec §3: "`(location_type,
offset)` identifies a memory cell (linear memory, global, stack slot, etc.)". -/
inductive LocationType
  | Stack
  | Heap
  | Global
  deriving DecidableEq, Repr

/-- Modelled from the spec: `AccessType` of the `specs` crate.  Spec §3:
"`access_type ∈ {Read, Write, Init}`". -/
inductive AccessType
  | Read
  | Write
  | Init
  deriving DecidableEq, Repr

/-- Modelled from the spec: a memory access record of the `specs` crate.
Spec §3: "Memory access record: `{location_type, offset, eid,
access_type, value}`". -/
structure MemoryTableEntry where
  ltype : LocationType
  offset : Nat
  eid : Nat
  atype : AccessType
  value : Nat
  deriving DecidableEq, Repr

/-- Modelled from the spec: `MemoryTableEntry::is_same_location`; spec §3 says
`(location_type, offset)` identifies a memory cell. -/
def MemoryTableEntry.isSameLocation (a b : MemoryTableEntry) : Bool :=
  decide (a.ltype = b.ltype ∧ a.offset = b.offset)

/-- `MemoryWritingEntry` of `table_entry.rs`: a retained (non-read) access
together with the exclusive upper bound `end_eid` of its validity interval. -/
structure MemoryWritingEntry where
  index : Nat
  entry : MemoryTableEntry
  end_eid : Nat
  deriving DecidableEq, Repr

/-- `MemoryWritingEntry::is_same_memory_address` of `table_entry.rs`. -/
def MemoryWritingEntry.isSameMemoryAddress (a b : MemoryWritingEntry) : Bool :=
  a.entry.isSameLocation b.entry

/-- The cell a raw access addresses. -/
def cellOfM (e : MemoryTableEntry) : LocationType × Nat := (e.ltype, e.offset)

/-- The cell a writing entry addresses. -/
def cellOfW (e : MemoryWritingEntry) : LocationType × Nat := (e.entry.ltype, e.entry.offset)

/-- First stage of `MemoryWritingTable::from`: keep the non-`Read` accesses in
order, attach a running index and the provisional `end_eid` sentinel. -/
def provisionalEntries (sentinel : Nat) (mt : List MemoryTableEntry) : List MemoryWritingEntry :=
  ((mt.filter (fun e => decide (e.atype ≠ AccessType.Read))).enum).map
    (fun p => ⟨p.1, p.2, sentinel⟩)

/-- Second stage of `MemoryWritingTable::from`: for each adjacent pair of
retained entries addressing the same cell, set the earlier entry's `end_eid`
to the later entry's `eid`. -/
def fixupEndEids : List MemoryWritingEntry → List MemoryWritingEntry
  | [] => []
  | [e] => [e]
  | e :: f :: rest =>
    (if e.isSameMemoryAddress f then { e with end_eid := f.entry.eid } else e)
      :: fixupEndEids (f :: rest)

/-- `MemoryWritingTable::from` of `table_entry.rs`.  The sentinel is
`u32::MAX` under the continuation feature and `common_range_max(k)` otherwise;
`common_range_max` lives outside the provided sources, so it is passed in as
the function argument `crm`. -/
def memoryWritingTableFrom (crm : Nat → Nat) (continuation : Bool) (k : Nat)
    (mt : List MemoryTableEntry) : List MemoryWritingEntry :=
  let maximalEid := if continuation then u32Max else crm k
  (fixupEndEids (provisionalEntries maximalEid mt)).filter
    (fun e => decide (e.entry.eid ≠ e.end_eid))

lemma provisional_map_entry (s : Nat) (mt : List MemoryTableEntry) :
    (provisionalEntries s mt).map MemoryWritingEntry.entry
      = mt.filter (fun e => decide (e.atype ≠ AccessType.Read)) := by
  unfold provisionalEntries
  rw [List.map_map]
  have h : (MemoryWritingEntry.entry ∘ fun p : Nat × MemoryTableEntry =>
      (⟨p.1, p.2, s⟩ : MemoryWritingEntry)) = Prod.snd := rfl
  rw [h, List.enum_map_snd]

lemma provisional_end_eq (s : Nat) (mt : List MemoryTableEntry) :
    ∀ e ∈ provisionalEntries s mt, e.end_eid = s := by
  intro e he
  unfold provisionalEntries at he
  obtain ⟨p, _, rfl⟩ := List.mem_map.mp he
  rfl

lemma fixup_map_entry : ∀ l : List MemoryWritingEntry,
    (fixupEndEids l).map MemoryWritingEntry.entry = l.map MemoryWritingEntry.entry := by
  intro l
  induction l with
  | nil => rfl
  | cons e rest ih =>
    cases rest with
    | nil => rfl
    | cons f r2 =>
      show ((if e.isSameMemoryAddress f then { e with end_eid := f.entry.eid } else e)
          :: fixupEndEids (f :: r2)).map MemoryWritingEntry.entry = _
      rw [List.map_cons, List.map_cons, ih]
      congr 1
      split <;> rfl

/-- C1.  `MemoryWritingTable::from` first retains exactly the non-`Read`
accesses of the input in their original order, giving each the provisional
`end_eid` sentinel (`u32::MAX` under continuation, `common_range_max(k)`
otherwise); after resolving the intervals it drops every entry whose `eid`
equals its `end_eid`, so the returned list consists of non-`Read` accesses in
original order and contains no vacuous entry. -/
theorem claim1_from_filters_nonread_and_drops_vacuous (crm : Nat → Nat)
    (continuation : Bool) (k : Nat) (mt : List MemoryTableEntry) :
    (provisionalEntries (if continuation then u32Max else crm k) mt).map
        MemoryWritingEntry.entry
      = mt.filter (fun e => decide (e.atype ≠ AccessType.Read))
    ∧ (provisionalEntries (if continuation then u32Max else crm k) mt).all
        (fun e => decide (e.end_eid = if continuation then u32Max else crm k))
    ∧ memoryWritingTableFrom crm continuation k mt
      = (fixupEndEids (provisionalEntries (if continuation then u32Max else crm k) mt)).filter
          (fun e => decide (e.entry.eid ≠ e.end_eid))
    ∧ ((memoryWritingTableFrom crm continuation k mt).map MemoryWritingEntry.entry).Sublist
        (mt.filter (fun e => decide (e.atype ≠ AccessType.Read)))
    ∧ (memoryWritingTableFrom crm continuation k mt).all
        (fun e => decide (e.entry.eid ≠ e.end_eid))
    ∧ (memoryWritingTableFrom crm continuation k mt).all
        (fun e => decide (e.entry.atype ≠ AccessType.Read)) := by
  set s := if continuation then u32Max else crm k with hs
  refine ⟨provisional_map_entry s mt, ?_, rfl, ?_, ?_, ?_⟩
  · rw [List.all_eq_true]
    intro e he
    exact decide_eq_true (provisional_end_eq s mt e he)
  · have h1 : (memoryWritingTableFrom crm continuation k mt).Sublist
        (fixupEndEids (provisionalEntries s mt)) := List.filter_sublist _
    have h2 := h1.map MemoryWritingEntry.entry
    rw [fixup_map_entry, provisional_map_entry] at h2
    exact h2
  · rw [List.all_eq_true]
    intro e he
    exact (List.mem_filter.mp he).2
  · rw [List.all_eq_true]
    intro e he
    have h1 : e ∈ fixupEndEids (provisionalEntries s mt) := (List.mem_filter.mp he).1
    have h2 : e.entry ∈ (fixupEndEids (provisionalEntries s mt)).map MemoryWritingEntry.entry :=
      List.mem_map_of_mem _ h1
    rw [fixup_map_entry, provisional_map_entry] at h2
    exact (List.mem_filter.mp h2).2

/-- Rank of an `Ordering`, used to express that a comparator is monotone along
a list (all `lt` entries precede all `eq` entries precede all `gt` entries). -/
def ordRank : Ordering → Nat
  | Ordering.lt => 0
  | Ordering.eq => 1
  | Ordering.gt => 2

/-- Core binary search, mirroring Rust `slice::binary_search_by`: maintain a
half-open window `[left, right)`, probe its midpoint, and narrow towards the
side the comparator indicates; `none` models the `Err(_)` outcome (which the
caller unwraps, i.e. a fatal panic).  The `fuel` argument is a structural
termination bound; it is always sufficient when `right - left ≤ fuel`. -/
def binarySearchGo {α : Type} (f : α → Ordering) (l : List α) (d : α) :
    Nat → Nat → Nat → Option Nat
  | 0, _, _ => none
  | fuel + 1, left, right =>
    if left < right then
      match f (l.getD (left + (right - left) / 2) d) with
      | Ordering.lt => binarySearchGo f l d fuel (left + (right - left) / 2 + 1) right
      | Ordering.gt => binarySearchGo f l d fuel left (left + (right - left) / 2)
      | Ordering.eq => some (left + (right - left) / 2)
    else none

/-- `slice::binary_search_by` over a whole list. -/
def binarySearchBy {α : Type} (l : List α) (d : α) (f : α → Ordering) : Option Nat :=
  binarySearchGo f l d (l.length + 1) 0 l.length

/-- Comparator of the write branch of `lookup_mtable_eid`
(`start_eid.cmp(eid)`). -/
def writeCmp (eid : Nat) (p : Nat × Nat) : Ordering := compare p.1 eid

/-- Comparator of the read branch of `lookup_mtable_eid`: `Greater` when
`eid <= start_eid`, `Less` when `eid > end_eid`, `Equal` otherwise. -/
def readCmp (eid : Nat) (p : Nat × Nat) : Ordering :=
  if eid ≤ p.1 then Ordering.gt else if p.2 < eid then Ordering.lt else Ordering.eq

/-- The `lookup_mtable_eid` closure of `EventTableWithMemoryInfo::new`,
acting on one cell's interval list; `none` models the fatal `unwrap` of a
failed search. -/
def lookupMtableEid (records : List (Nat × Nat)) (eid : Nat) (isWriting : Bool) :
    Option (Nat × Nat) :=
  if isWriting then
    match binarySearchBy records (0, 0) (writeCmp eid) with
    | some i => some (records.getD i (0, 0))
    | none => none
  else
    match binarySearchBy records (0, 0) (readCmp eid) with
    | some i => some (records.getD i (0, 0))
    | none => none

/-- `MemoryWritingTable::build_lookup_mapping`, as the fibre of one cell: the
`(start_eid, end_eid)` pairs of the table's entries at that cell, in table
order. -/
def buildLookupMapping (t : List MemoryWritingEntry) (cell : LocationType × Nat) :
    List (Nat × Nat) :=
  (t.filter (fun e => decide (cellOfW e = cell))).map (fun e => (e.entry.eid, e.end_eid))

lemma readCmp_eq_gt {eid : Nat} {p : Nat × Nat} :
    readCmp eid p = Ordering.gt ↔ eid ≤ p.1 := by
  unfold readCmp; split_ifs <;> simp_all

lemma readCmp_eq_lt {eid : Nat} {p : Nat × Nat} :
    readCmp eid p = Ordering.lt ↔ p.1 < eid ∧ p.2 < eid := by
  unfold readCmp; split_ifs <;> simp_all

lemma readCmp_eq_eq {eid : Nat} {p : Nat × Nat} :
    readCmp eid p = Ordering.eq ↔ p.1 < eid ∧ eid ≤ p.2 := by
  unfold readCmp; split_ifs <;> simp_all

lemma binarySearchGo_finds {α : Type} (f : α → Ordering) (l : List α) (d : α) (k : Nat)
    (hmono : ∀ i j : Nat, i ≤ j → j < l.length →
      ordRank (f (l.getD i d)) ≤ ordRank (f (l.getD j d)))
    (hk : k < l.length) (hfk : f (l.getD k d) = Ordering.eq) :
    ∀ fuel left right : Nat, right - left ≤ fuel → right ≤ l.length → left ≤ k → k < right →
      ∃ m, binarySearchGo f l d fuel left right = some m ∧ m < l.length
        ∧ f (l.getD m d) = Ordering.eq := by
  intro fuel
  induction fuel with
  | zero => intro left right h1 _ h3 h4; omega
  | succ fuel ih =>
    intro left right h1 h2 h3 h4
    have hlr : left < right := by omega
    have hmidlt : left + (right - left) / 2 < right := by omega
    have hmidge : left ≤ left + (right - left) / 2 := by omega
    rw [binarySearchGo, if_pos hlr]
    cases hfm : f (l.getD (left + (right - left) / 2) d) with
    | eq => exact ⟨left + (right - left) / 2, rfl, by omega, hfm⟩
    | lt =>
      have hkm : left + (right - left) / 2 < k := by
        by_contra hc
        push_neg at hc
        have hmr := hmono k (left + (right - left) / 2) hc (by omega)
        rw [hfk, hfm] at hmr
        simp [ordRank] at hmr
      exact ih (left + (right - left) / 2 + 1) right (by omega) h2 (by omega) h4
    | gt =>
      have hkm : k < left + (right - left) / 2 := by
        by_contra hc
        push_neg at hc
        have hmr := hmono (left + (right - left) / 2) k hc hk
        rw [hfk, hfm] at hmr
        simp [ordRank] at hmr
      exact ih left (left + (right - left) / 2) (by omega) (by omega) h3 hkm

lemma ordRank_le_two (o : Ordering) : ordRank o ≤ 2 := by
  cases o <;> simp [ordRank]

lemma ordRank_compare_mono (e a b : Nat) (hab : a ≤ b) :
    ordRank (compare a e) ≤ ordRank (compare b e) := by
  rcases lt_trichotomy a e with h1 | h1 | h1
  · rw [compare_lt_iff_lt.mpr h1]; simp [ordRank]
  · subst h1
    rcases eq_or_lt_of_le hab with h2 | h2
    · subst h2; exact le_rfl
    · rw [compare_gt_iff_gt.mpr h2, compare_eq_iff_eq.mpr rfl]; simp [ordRank]
  · rw [compare_gt_iff_gt.mpr h1, compare_gt_iff_gt.mpr (lt_of_lt_of_le h1 hab)]

/-- C2 (amended).  For a cell's interval list that is strictly sorted by
`start_eid`, with `start_eid ≤ end_eid` inside each interval and
`end_eid ≤ start_eid` across successive intervals (which is how the resolver
lays out a well-formed cell history): a write access resolves to the interval
whose `start_eid` equals the access `eid`, and a read access resolves to the
(necessarily unique) interval with `start_eid < eid ≤ end_eid`. -/
theorem claim2_lookup_resolution (records : List (Nat × Nat)) (eid : Nat)
    (hwf : ∀ p ∈ records, p.1 ≤ p.2)
    (hsep : ∀ j, j < records.length → ∀ i, i < j →
      (records.getD i (0, 0)).2 ≤ (records.getD j (0, 0)).1)
    (hss : ∀ j, j < records.length → ∀ i, i < j →
      (records.getD i (0, 0)).1 < (records.getD j (0, 0)).1) :
    (∀ e : Nat, (eid, e) ∈ records → lookupMtableEid records eid true = some (eid, e))
    ∧ (∀ s e : Nat, (s, e) ∈ records → s < eid → eid ≤ e →
        lookupMtableEid records eid false = some (s, e)) := by
  constructor
  · intro e hmem
    obtain ⟨k, hk, hget⟩ := List.mem_iff_getElem.mp hmem
    have hgetD : records.getD k (0, 0) = (eid, e) := by
      rw [List.getD_eq_getElem records (0, 0) hk, hget]
    have hfk : writeCmp eid (records.getD k (0, 0)) = Ordering.eq := by
      rw [hgetD]
      exact compare_eq_iff_eq.mpr rfl
    have hmono : ∀ i j : Nat, i ≤ j → j < records.length →
        ordRank (writeCmp eid (records.getD i (0, 0)))
          ≤ ordRank (writeCmp eid (records.getD j (0, 0))) := by
      intro i j hij hj
      rcases eq_or_lt_of_le hij with h | h
      · subst h; exact le_rfl
      · exact ordRank_compare_mono eid _ _ (le_of_lt (hss j hj i h))
    obtain ⟨m, hm, hmlt, hfm⟩ := binarySearchGo_finds (writeCmp eid) records (0, 0) k hmono hk
      hfk (records.length + 1) 0 records.length (by omega) le_rfl (Nat.zero_le k) hk
    have hmm : (records.getD m (0, 0)).1 = eid := compare_eq_iff_eq.mp hfm
    have hmk : m = k := by
      rcases lt_trichotomy m k with h | h | h
      · have h2 := hss k hk m h
        rw [hgetD] at h2
        omega
      · exact h
      · have h2 := hss m hmlt k h
        rw [hgetD] at h2
        omega
    have hb : binarySearchBy records (0, 0) (writeCmp eid) = some m := hm
    rw [show lookupMtableEid records eid true
        = (match binarySearchBy records (0, 0) (writeCmp eid) with
           | some i => some (records.getD i (0, 0))
           | none => none) from rfl, hb]
    rw [hmk]
    show some (records.getD k (0, 0)) = some (eid, e)
    rw [hgetD]
  · intro s e hmem hs he
    obtain ⟨k, hk, hget⟩ := List.mem_iff_getElem.mp hmem
    have hgetD : records.getD k (0, 0) = (s, e) := by
      rw [List.getD_eq_getElem records (0, 0) hk, hget]
    have hfk : readCmp eid (records.getD k (0, 0)) = Ordering.eq := by
      rw [hgetD]
      exact readCmp_eq_eq.mpr ⟨hs, he⟩
    have hmono : ∀ i j : Nat, i ≤ j → j < records.length →
        ordRank (readCmp eid (records.getD i (0, 0)))
          ≤ ordRank (readCmp eid (records.getD j (0, 0))) := by
      intro i j hij hj
      rcases eq_or_lt_of_le hij with heq | hlt
      · subst heq; exact le_rfl
      · have hij2 := hsep j hj i hlt
        have hwfi : (records.getD i (0, 0)).1 ≤ (records.getD i (0, 0)).2 := by
          refine hwf _ ?_
          rw [List.getD_eq_getElem records (0, 0) (by omega)]
          exact List.getElem_mem _
        rcases hrj : readCmp eid (records.getD j (0, 0)) with _ | _ | _
        · have hj2 := readCmp_eq_lt.mp hrj
          have hri : readCmp eid (records.getD i (0, 0)) = Ordering.lt :=
            readCmp_eq_lt.mpr ⟨by omega, by omega⟩
          rw [hri]
        · have hj2 := readCmp_eq_eq.mp hrj
          have hri : readCmp eid (records.getD i (0, 0)) = Ordering.lt :=
            readCmp_eq_lt.mpr ⟨by omega, by omega⟩
          rw [hri]; simp [ordRank]
        · exact ordRank_le_two _
    obtain ⟨m, hm, hmlt, hfm⟩ := binarySearchGo_finds (readCmp eid) records (0, 0) k hmono hk
      hfk (records.length + 1) 0 records.length (by omega) le_rfl (Nat.zero_le k) hk
    have hmm := readCmp_eq_eq.mp hfm
    have hmk : m = k := by
      rcases lt_trichotomy m k with h | h | h
      · have h2 := hsep k hk m h
        rw [hgetD] at h2
        omega
      · exact h
      · have h2 := hsep m hmlt k h
        rw [hgetD] at h2
        omega
    have hb : binarySearchBy records (0, 0) (readCmp eid) = some m := hm
    rw [show lookupMtableEid records eid false
        = (match binarySearchBy records (0, 0) (readCmp eid) with
           | some i => some (records.getD i (0, 0))
           | none => none) from rfl, hb]
    rw [hmk]
    show some (records.getD k (0, 0)) = some (s, e)
    rw [hgetD]

/-- C2 counterexample.  The claim as stated only requires the cell's list to
be sorted and to contain exactly one interval with `start_eid < eid ≤
end_eid`.  For the list `[(1,10), (5,6)]` (sorted by `start_eid`) and a read
at `eid = 7`, the interval `(1,10)` is the unique satisfier, yet the binary
search probes `(5,6)`, classifies it as `Less`, discards the left half, and
fails: the lookup panics (`none`) instead of returning `(1,10)`. -/
theorem claim2_counterexample :
    ([((1 : Nat), (10 : Nat)), (5, 6)].filter
        (fun p => decide (p.1 < 7 ∧ 7 ≤ p.2))) = [(1, 10)]
    ∧ (∀ j, j < 2 → ∀ i, i < j →
        (([((1 : Nat), (10 : Nat)), (5, 6)]).getD i (0, 0)).1
          < (([((1 : Nat), (10 : Nat)), (5, 6)]).getD j (0, 0)).1)
    ∧ lookupMtableEid [((1 : Nat), (10 : Nat)), (5, 6)] 7 false = none := by
  refine ⟨by decide, by decide, by decide⟩

/-- Witness for C2 (amended), on the spec's own round-trip history
`[(1,5), (5,9)]`: a write at `eid = 5` resolves to `(5,9)` and a read at
`eid = 3` resolves to `(1,5)`. -/
theorem claim2_witness :
    lookupMtableEid [((1 : Nat), (5 : Nat)), (5, 9)] 5 true = some (5, 9)
    ∧ lookupMtableEid [((1 : Nat), (5 : Nat)), (5, 9)] 3 false = some (1, 5) := by
  constructor
  · exact (claim2_lookup_resolution [(1, 5), (5, 9)] 5 (by decide) (by decide)
      (by decide)).1 9 (by decide)
  · exact (claim2_lookup_resolution [(1, 5), (5, 9)] 3 (by decide) (by decide)
      (by decide)).2 1 5 (by decide) (by decide) (by decide)

/-- A list of cell identities is grouped (cell-clustered) when each element is
either equal to its successor or never occurs again: equal cells form
contiguous blocks.  This is the pre-grouping that `table_entry.rs` assumes of
its input order (spec §9 design note). -/
def grouped {β : Type} [DecidableEq β] : List β → Bool
  | [] => true
  | [_] => true
  | a :: b :: rest => (decide (a = b) || !(decide (a ∈ b :: rest))) && grouped (b :: rest)

lemma cellOfW_entry (x : MemoryWritingEntry) : cellOfW x = cellOfM x.entry := rfl

lemma isSameMemoryAddress_iff (a b : MemoryWritingEntry) :
    a.isSameMemoryAddress b = true ↔ cellOfW a = cellOfW b := by
  simp [MemoryWritingEntry.isSameMemoryAddress, MemoryTableEntry.isSameLocation, cellOfW,
    Prod.ext_iff]

lemma cellOfW_ite_setEnd (e f : MemoryWritingEntry) :
    cellOfW (if e.isSameMemoryAddress f then { e with end_eid := f.entry.eid } else e)
      = cellOfW e := by
  split <;> rfl

lemma grouped_cons_cons {β : Type} [DecidableEq β] (a b : β) (rest : List β)
    (h : grouped (a :: b :: rest) = true) :
    (a = b ∨ a ∉ b :: rest) ∧ grouped (b :: rest) = true := by
  rw [show grouped (a :: b :: rest)
      = ((decide (a = b) || !(decide (a ∈ b :: rest))) && grouped (b :: rest)) from rfl] at h
  rw [Bool.and_eq_true, Bool.or_eq_true] at h
  refine ⟨?_, h.2⟩
  rcases h.1 with h1 | h1
  · exact Or.inl (of_decide_eq_true h1)
  · rw [Bool.not_eq_true'] at h1
    exact Or.inr (of_decide_eq_false h1)

/-- On cell-clustered input, resolving the intervals commutes with restricting
to one cell: the fix-up only ever links an entry to its immediate successor,
and under clustering that successor is exactly the entry's successor within
its own cell. -/
lemma fixup_filter_cell_comm (c : LocationType × Nat) :
    ∀ l : List MemoryWritingEntry, grouped (l.map cellOfW) = true →
    (fixupEndEids l).filter (fun x => decide (cellOfW x = c))
      = fixupEndEids (l.filter (fun x => decide (cellOfW x = c))) := by
  intro l
  induction l with
  | nil => intro _; rfl
  | cons e t ih =>
    intro hg
    cases t with
    | nil =>
      show [e].filter (fun x => decide (cellOfW x = c)) = _
      rw [List.filter_cons]
      split
      · rfl
      · rfl
    | cons f rest =>
      have hg' := grouped_cons_cons (cellOfW e) (cellOfW f)
        (rest.map cellOfW) (by simpa using hg)
      have ihr := ih (by simpa using hg'.2)
      have hlhs : fixupEndEids (e :: f :: rest)
          = (if e.isSameMemoryAddress f then { e with end_eid := f.entry.eid } else e)
            :: fixupEndEids (f :: rest) := rfl
      rw [hlhs]
      by_cases hce : cellOfW e = c
      · have hpe' : (fun x => decide (cellOfW x = c))
            (if e.isSameMemoryAddress f then { e with end_eid := f.entry.eid } else e) = true := by
          show decide (cellOfW
            (if e.isSameMemoryAddress f then { e with end_eid := f.entry.eid } else e) = c) = true
          rw [cellOfW_ite_setEnd]
          exact decide_eq_true hce
        rw [List.filter_cons, if_pos hpe', ihr]
        by_cases hcf : cellOfW e = cellOfW f
        · have hsame : e.isSameMemoryAddress f = true := (isSameMemoryAddress_iff e f).mpr hcf
          have hff : (f :: rest).filter (fun x => decide (cellOfW x = c))
              = f :: rest.filter (fun x => decide (cellOfW x = c)) := by
            rw [List.filter_cons, if_pos (decide_eq_true (by rw [← hcf]; exact hce))]
          rw [hff]
          have hrhs : (e :: f :: rest).filter (fun x => decide (cellOfW x = c))
              = e :: f :: rest.filter (fun x => decide (cellOfW x = c)) := by
            rw [List.filter_cons, if_pos (decide_eq_true hce), hff]
          rw [hrhs]
          rfl
        · have hnotmem : cellOfW e ∉ (f :: rest).map cellOfW := by
            rcases hg'.1 with h1 | h1
            · exact absurd h1 hcf
            · simpa using h1
          have hfe : (f :: rest).filter (fun x => decide (cellOfW x = c)) = [] := by
            rw [List.filter_eq_nil_iff]
            intro x hx hcx
            apply hnotmem
            rw [← hce] at hcx
            have := of_decide_eq_true hcx
            rw [← this]
            exact List.mem_map_of_mem cellOfW hx
          rw [hfe]
          have hrhs : (e :: f :: rest).filter (fun x => decide (cellOfW x = c)) = [e] := by
            rw [List.filter_cons, if_pos (decide_eq_true hce), hfe]
          rw [hrhs]
          have hsame : e.isSameMemoryAddress f = false := by
            rw [Bool.eq_false_iff]
            intro h
            exact hcf ((isSameMemoryAddress_iff e f).mp h)
          rw [show (if e.isSameMemoryAddress f then { e with end_eid := f.entry.eid } else e)
              = e by rw [hsame]; rfl]
          rfl
      · have hpe' : ¬ ((fun x => decide (cellOfW x = c))
            (if e.isSameMemoryAddress f then { e with end_eid := f.entry.eid } else e) = true) := by
          show ¬ (decide (cellOfW
            (if e.isSameMemoryAddress f then { e with end_eid := f.entry.eid } else e) = c) = true)
          rw [cellOfW_ite_setEnd]
          simpa using hce
        rw [List.filter_cons, if_neg hpe', ihr]
        have hrhs : (e :: f :: rest).filter (fun x => decide (cellOfW x = c))
            = (f :: rest).filter (fun x => decide (cellOfW x = c)) := by
          rw [List.filter_cons, if_neg (by simpa using hce)]
        rw [hrhs]

lemma fixup_head_entry (f : MemoryWritingEntry) (r : List MemoryWritingEntry) :
    ∃ g t, fixupEndEids (f :: r) = g :: t ∧ g.entry = f.entry := by
  cases r with
  | nil => exact ⟨f, [], rfl, rfl⟩
  | cons f2 r2 =>
    refine ⟨_, _, rfl, ?_⟩
    split <;> rfl

/-- After the fix-up pass, a run of entries that all address the same cell and
all carry the provisional sentinel forms a linked chain: each entry's
`end_eid` is the next entry's `eid`, and the final entry keeps the
sentinel. -/
lemma fixup_allsame_chain (c : LocationType × Nat) (M : Nat) :
    ∀ l : List MemoryWritingEntry, (∀ x ∈ l, cellOfW x = c) → (∀ x ∈ l, x.end_eid = M) →
    List.Chain' (fun p q => p.end_eid = q.entry.eid) (fixupEndEids l)
    ∧ ∀ x, (fixupEndEids l).getLast? = some x → x.end_eid = M := by
  intro l
  induction l with
  | nil =>
    intro _ _
    exact ⟨List.chain'_nil, by intro x hx; simp [fixupEndEids] at hx⟩
  | cons e t ih =>
    intro hcell hend
    cases t with
    | nil =>
      refine ⟨List.chain'_singleton e, ?_⟩
      intro x hx
      have h2 : ([e] : List MemoryWritingEntry).getLast? = some x := hx
      rw [List.getLast?_singleton, Option.some.injEq] at h2
      rw [← h2]
      exact hend e (by simp)
    | cons f r =>
      have hsame : e.isSameMemoryAddress f = true :=
        (isSameMemoryAddress_iff e f).mpr
          (by rw [hcell e (by simp), hcell f (by simp)])
      have ihr := ih (fun x hx => hcell x (List.mem_cons_of_mem e hx))
        (fun x hx => hend x (List.mem_cons_of_mem e hx))
      obtain ⟨g, t2, hgt, hge⟩ := fixup_head_entry f r
      have hlhs : fixupEndEids (e :: f :: r)
          = { e with end_eid := f.entry.eid } :: fixupEndEids (f :: r) := by
        show (if e.isSameMemoryAddress f then { e with end_eid := f.entry.eid } else e)
            :: fixupEndEids (f :: r) = _
        rw [if_pos hsame]
      refine ⟨?_, ?_⟩
      · rw [hlhs]
        refine List.chain'_cons'.mpr ⟨?_, ihr.1⟩
        intro y hy
        rw [hgt] at hy
        simp at hy
        rw [← hy, ← hge]
      · intro x hx
        rw [hlhs, hgt, List.getLast?_cons_cons] at hx
        exact ihr.2 x (by rw [hgt]; exact hx)

/-- If a linked chain's entries are all vacuous (dropped), its head's `eid`
telescopes to the chain's terminal `end_eid`. -/
lemma chain_all_dropped (M : Nat) :
    ∀ (l : List MemoryWritingEntry) (h : MemoryWritingEntry),
    List.Chain' (fun p q => p.end_eid = q.entry.eid) l →
    l.head? = some h →
    l.filter (fun x => decide (x.entry.eid ≠ x.end_eid)) = [] →
    (∀ x, l.getLast? = some x → x.end_eid = M) →
    h.entry.eid = M := by
  intro l
  induction l with
  | nil => intro h _ hh; simp at hh
  | cons a t ih =>
    intro h hchain hh hfil hlast
    have hah : a = h := by simpa using hh
    subst hah
    have hka : ¬ (a.entry.eid ≠ a.end_eid) := by
      have := List.filter_eq_nil_iff.mp hfil a (by simp)
      simpa using this
    have haa : a.entry.eid = a.end_eid := by omega
    cases t with
    | nil =>
      rw [haa]
      exact hlast a rfl
    | cons b t2 =>
      have hcb := List.chain'_cons.mp hchain
      have hfil2 : (b :: t2).filter (fun x => decide (x.entry.eid ≠ x.end_eid)) = [] := by
        rw [List.filter_eq_nil_iff]
        intro x hx
        exact List.filter_eq_nil_iff.mp hfil x (List.mem_cons_of_mem a hx)
      have hlast2 : ∀ x, (b :: t2).getLast? = some x → x.end_eid = M := by
        intro x hx
        exact hlast x (by rw [List.getLast?_cons_cons]; exact hx)
      have hb := ih b hcb.2 rfl hfil2 hlast2
      rw [haa, hcb.1, hb]

/-- The first surviving entry of a linked chain after the vacuous-drop filter
has the same `eid` as the chain's head: the dropped prefix telescopes. -/
lemma chain_first_kept :
    ∀ (l : List MemoryWritingEntry) (h g : MemoryWritingEntry) (t : List MemoryWritingEntry),
    List.Chain' (fun p q => p.end_eid = q.entry.eid) l →
    l.head? = some h →
    l.filter (fun x => decide (x.entry.eid ≠ x.end_eid)) = g :: t →
    g.entry.eid = h.entry.eid := by
  intro l
  induction l with
  | nil => intro h g t _ hh; simp at hh
  | cons a t0 ih =>
    intro h g t hchain hh hfil
    have hah : a = h := by simpa using hh
    subst hah
    by_cases hka : decide (a.entry.eid ≠ a.end_eid) = true
    · rw [List.filter_cons, if_pos hka] at hfil
      have := (List.cons.inj hfil).1
      rw [← this]
    · rw [List.filter_cons, if_neg hka] at hfil
      have haa : a.entry.eid = a.end_eid := by
        have := of_decide_eq_false (Bool.eq_false_iff.mpr hka)
        omega
      cases t0 with
      | nil => simp at hfil
      | cons b t2 =>
        have hcb := List.chain'_cons.mp hchain
        have hgb := ih b g t hcb.2 rfl hfil
        rw [hgb, ← hcb.1, ← haa]

/-- Dropping the vacuous entries from a linked chain preserves the chain: the
survivors still satisfy "earlier `end_eid` = later `eid`", and the final
survivor still carries the terminal `end_eid`. -/
lemma chain_filter_keep (M : Nat) :
    ∀ l : List MemoryWritingEntry,
    List.Chain' (fun p q => p.end_eid = q.entry.eid) l →
    (∀ x, l.getLast? = some x → x.end_eid = M) →
    List.Chain' (fun p q => p.end_eid = q.entry.eid)
      (l.filter (fun x => decide (x.entry.eid ≠ x.end_eid)))
    ∧ ∀ x, (l.filter (fun x => decide (x.entry.eid ≠ x.end_eid))).getLast? = some x →
      x.end_eid = M := by
  intro l
  induction l with
  | nil =>
    intro _ _
    exact ⟨List.chain'_nil, by intro x hx; simp at hx⟩
  | cons a t ih =>
    intro hchain hlast
    have hchaint : List.Chain' (fun p q => p.end_eid = q.entry.eid) t := hchain.tail
    have hlastt : t ≠ [] → ∀ x, t.getLast? = some x → x.end_eid = M := by
      intro hne x hx
      apply hlast
      cases t with
      | nil => exact absurd rfl hne
      | cons b t2 => rw [List.getLast?_cons_cons]; exact hx
    by_cases hka : decide (a.entry.eid ≠ a.end_eid) = true
    · rw [List.filter_cons, if_pos hka]
      rcases hfe : t.filter (fun x => decide (x.entry.eid ≠ x.end_eid)) with _ | ⟨g, t2⟩
      · rw [hfe]
        refine ⟨List.chain'_singleton a, ?_⟩
        intro x hx
        have hxa : x = a := by
          rw [List.getLast?_singleton, Option.some.injEq] at hx
          exact hx.symm
        rw [hxa]
        cases t with
        | nil => exact hlast a rfl
        | cons b t2' =>
          have hcb := List.chain'_cons.mp hchain
          have hb := chain_all_dropped M (b :: t2') b hcb.2 rfl hfe
            (fun y hy => hlastt (by simp) y hy)
          rw [hcb.1, hb]
      · have ht_ne : t ≠ [] := by
          intro h0
          rw [h0] at hfe
          simp at hfe
        have ihr := ih hchaint (hlastt ht_ne)
        rw [hfe] at ihr
        cases t with
        | nil => exact absurd rfl ht_ne
        | cons b t2' =>
          have hcb := List.chain'_cons.mp hchain
          have hgb : g.entry.eid = b.entry.eid := chain_first_kept (b :: t2') b g t2 hcb.2 rfl hfe
          refine ⟨?_, ?_⟩
          · rw [hfe]
            refine List.chain'_cons.mpr ⟨?_, ihr.1⟩
            rw [hgb]
            exact hcb.1
          · intro x hx
            rw [hfe, List.getLast?_cons_cons] at hx
            exact ihr.2 x hx
    · rw [List.filter_cons, if_neg hka]
      cases t with
      | nil => exact ⟨List.chain'_nil, by intro x hx; simp at hx⟩
      | cons b t2' => exact ih hchaint (hlastt (by simp))

/-- C3 (amended).  When the retained (non-read) accesses are cell-clustered
(grouped by `(location_type, offset)`, the pre-grouping the source assumes),
the resolved output satisfies the interval-chain invariant: restricted to any
one cell, consecutive writing entries are linked (the earlier one's `end_eid`
equals the later one's `eid`) and the last writing entry of the cell keeps the
maximal sentinel. -/
theorem claim3_chain_invariant (crm : Nat → Nat) (continuation : Bool) (k : Nat)
    (mt : List MemoryTableEntry)
    (hg : grouped ((mt.filter (fun e => decide (e.atype ≠ AccessType.Read))).map cellOfM) = true)
    (c : LocationType × Nat) :
    List.Chain' (fun p q => p.end_eid = q.entry.eid)
      ((memoryWritingTableFrom crm continuation k mt).filter (fun x => decide (cellOfW x = c)))
    ∧ ∀ x, ((memoryWritingTableFrom crm continuation k mt).filter
          (fun x => decide (cellOfW x = c))).getLast? = some x →
        x.end_eid = (if continuation then u32Max else crm k) := by
  set s := if continuation then u32Max else crm k with hs
  set prov := provisionalEntries s mt with hprov
  have hgp : grouped (prov.map cellOfW) = true := by
    have hmapc : prov.map cellOfW
        = (mt.filter (fun e => decide (e.atype ≠ AccessType.Read))).map cellOfM := by
      rw [← provisional_map_entry s mt, List.map_map]
      rfl
    rw [hmapc]
    exact hg
  have hcomm := fixup_filter_cell_comm c prov hgp
  have hswap : (memoryWritingTableFrom crm continuation k mt).filter
      (fun x => decide (cellOfW x = c))
      = ((fixupEndEids prov).filter (fun x => decide (cellOfW x = c))).filter
        (fun x => decide (x.entry.eid ≠ x.end_eid)) := by
    show ((fixupEndEids prov).filter (fun e => decide (e.entry.eid ≠ e.end_eid))).filter
        (fun x => decide (cellOfW x = c)) = _
    rw [List.filter_comm]
  rw [hswap, hcomm]
  have hcellf : ∀ x ∈ prov.filter (fun x => decide (cellOfW x = c)), cellOfW x = c := by
    intro x hx
    exact of_decide_eq_true (List.mem_filter.mp hx).2
  have hendf : ∀ x ∈ prov.filter (fun x => decide (cellOfW x = c)), x.end_eid = s := by
    intro x hx
    exact provisional_end_eq s mt x (List.mem_filter.mp hx).1
  have hfix := fixup_allsame_chain c s (prov.filter (fun x => decide (cellOfW x = c)))
    hcellf hendf
  exact chain_filter_keep s _ hfix.1 hfix.2

/-- Default writing entry, used only as the `getD` fallback. -/
def defaultWritingEntry : MemoryWritingEntry :=
  ⟨0, ⟨LocationType.Stack, 0, 0, AccessType.Read, 0⟩, 0⟩

/-- An interleaved access trace: cell `(Heap,0)` is written at `eid = 1` and
`eid = 5` with a write to `(Heap,1)` at `eid = 2` in between. -/
def mtInterleaved : List MemoryTableEntry :=
  [⟨LocationType.Heap, 0, 1, AccessType.Write, 0⟩,
   ⟨LocationType.Heap, 1, 2, AccessType.Write, 0⟩,
   ⟨LocationType.Heap, 0, 5, AccessType.Write, 0⟩]

/-- C3 counterexample.  On an interleaved (non-cell-clustered) trace the
resolver links only *adjacent* entries, so the two writing entries of cell
`(Heap,0)` come out with the earlier one's `end_eid` equal to the sentinel
(100), not to the later one's `eid` (5): the invariant as claimed fails. -/
theorem claim3_counterexample :
    ((memoryWritingTableFrom (fun _ => 100) false 0 mtInterleaved).filter
        (fun x => decide (cellOfW x = (LocationType.Heap, 0)))).length = 2
    ∧ (((memoryWritingTableFrom (fun _ => 100) false 0 mtInterleaved).filter
        (fun x => decide (cellOfW x = (LocationType.Heap, 0)))).getD 0
          defaultWritingEntry).end_eid
      ≠ (((memoryWritingTableFrom (fun _ => 100) false 0 mtInterleaved).filter
        (fun x => decide (cellOfW x = (LocationType.Heap, 0)))).getD 1
          defaultWritingEntry).entry.eid := by
  refine ⟨by decide, by decide⟩

/-- A cell-clustered access trace: both writes to `(Heap,0)` first, then the
write to `(Heap,1)`. -/
def mtGrouped : List MemoryTableEntry :=
  [⟨LocationType.Heap, 0, 1, AccessType.Write, 0⟩,
   ⟨LocationType.Heap, 0, 5, AccessType.Write, 0⟩,
   ⟨LocationType.Heap, 1, 2, AccessType.Write, 0⟩]

/-- Witness for C3 (amended): on a cell-clustered trace the hypotheses hold
and the chain invariant follows for cell `(Heap,0)`. -/
theorem claim3_witness :
    grouped ((mtGrouped.filter (fun e => decide (e.atype ≠ AccessType.Read))).map cellOfM) = true
    ∧ List.Chain' (fun p q => p.end_eid = q.entry.eid)
        ((memoryWritingTableFrom (fun _ => 100) false 0 mtGrouped).filter
          (fun x => decide (cellOfW x = (LocationType.Heap, 0))))
    ∧ ∀ x, ((memoryWritingTableFrom (fun _ => 100) false 0 mtGrouped).filter
          (fun x => decide (cellOfW x = (LocationType.Heap, 0)))).getLast? = some x →
        x.end_eid = 100 := by
  refine ⟨by decide, (claim3_chain_invariant (fun _ => 100) false 0 mtGrouped (by decide)
    (LocationType.Heap, 0)).1, ?_⟩
  intro x hx
  have h2 := (claim3_chain_invariant (fun _ => 100) false 0 mtGrouped (by decide)
    (LocationType.Heap, 0)).2 x hx
  simpa using h2

/-- The counting condition of `count_rest_memory_finalize_ops` at one entry:
the access is a `Write` and the *peeked next* entry (if any) addresses a
different cell. -/
def finalizeHere (e : MemoryWritingEntry) : List MemoryWritingEntry → Bool
  | [] => decide (e.entry.atype = AccessType.Write)
  | f :: _ => decide (e.entry.atype = AccessType.Write) && ! e.isSameMemoryAddress f

/-- `MemoryWritingTable::count_rest_memory_finalize_ops` of `table_entry.rs`:
one forward scan with peek; a counted entry contributes `1` to the count and
its `(location_type, offset)` pair to the set. -/
def countRestMemoryFinalizeOps : List MemoryWritingEntry → Nat × Finset (LocationType × Nat)
  | [] => (0, ∅)
  | e :: rest =>
    let r := countRestMemoryFinalizeOps rest
    if finalizeHere e rest then (r.1 + 1, insert (e.entry.ltype, e.entry.offset) r.2) else r

/-- The entries the scan counts, in order. -/
def finalizeList : List MemoryWritingEntry → List MemoryWritingEntry
  | [] => []
  | e :: rest => if finalizeHere e rest then e :: finalizeList rest else finalizeList rest

/-- Claim-side definition, following the spec's words: an entry is a
"finalize write" iff it is a `Write` and *no following entry anywhere in the
list* shares its cell. -/
def lastWritesSpec : List MemoryWritingEntry → List MemoryWritingEntry
  | [] => []
  | e :: rest =>
    if decide (e.entry.atype = AccessType.Write)
        && ! decide (cellOfW e ∈ rest.map cellOfW) then
      e :: lastWritesSpec rest
    else lastWritesSpec rest

lemma countRest_eq_finalizeList : ∀ l : List MemoryWritingEntry,
    countRestMemoryFinalizeOps l
      = ((finalizeList l).length, ((finalizeList l).map cellOfW).toFinset) := by
  intro l
  induction l with
  | nil => rfl
  | cons e rest ih =>
    show (if finalizeHere e rest then ((countRestMemoryFinalizeOps rest).1 + 1,
        insert (e.entry.ltype, e.entry.offset) (countRestMemoryFinalizeOps rest).2)
      else countRestMemoryFinalizeOps rest) = _
    by_cases h : finalizeHere e rest = true
    · rw [if_pos h, ih,
        show finalizeList (e :: rest) = e :: finalizeList rest from by
          show (if finalizeHere e rest then _ else _) = _
          rw [if_pos h]]
      simp [cellOfW]
    · rw [if_neg h, ih,
        show finalizeList (e :: rest) = finalizeList rest from by
          show (if finalizeHere e rest then _ else _) = _
          rw [if_neg h]]

lemma finalizeList_sublist : ∀ l : List MemoryWritingEntry, (finalizeList l).Sublist l := by
  intro l
  induction l with
  | nil => exact List.Sublist.refl []
  | cons e rest ih =>
    show (if finalizeHere e rest then e :: finalizeList rest else finalizeList rest).Sublist _
    split
    · exact List.Sublist.cons₂ e ih
    · exact List.Sublist.cons e ih

lemma lastWrites_sublist : ∀ l : List MemoryWritingEntry, (lastWritesSpec l).Sublist l := by
  intro l
  induction l with
  | nil => exact List.Sublist.refl []
  | cons e rest ih =>
    show (if _ then e :: lastWritesSpec rest else lastWritesSpec rest).Sublist _
    split
    · exact List.Sublist.cons₂ e ih
    · exact List.Sublist.cons e ih

lemma band_true_left {a b : Bool} (h : (a && b) = true) : a = true := by
  rw [Bool.and_eq_true] at h
  exact h.1

lemma band_true_right {a b : Bool} (h : (a && b) = true) : b = true := by
  rw [Bool.and_eq_true] at h
  exact h.2

lemma finalizeHere_write {e : MemoryWritingEntry} {rest : List MemoryWritingEntry}
    (h : finalizeHere e rest = true) : e.entry.atype = AccessType.Write := by
  cases rest with
  | nil => exact of_decide_eq_true h
  | cons f r => exact of_decide_eq_true (band_true_left h)

lemma finalizeList_write : ∀ l : List MemoryWritingEntry,
    ∀ e ∈ finalizeList l, e.entry.atype = AccessType.Write := by
  intro l
  induction l with
  | nil => intro e he; simp [finalizeList] at he
  | cons a rest ih =>
    intro e he
    by_cases h : finalizeHere a rest = true
    · rw [show finalizeList (a :: rest) = a :: finalizeList rest from by
        show (if finalizeHere a rest then _ else _) = _
        rw [if_pos h]] at he
      rcases List.mem_cons.mp he with hea | het
      · rw [hea]; exact finalizeHere_write h
      · exact ih e het
    · rw [show finalizeList (a :: rest) = finalizeList rest from by
        show (if finalizeHere a rest then _ else _) = _
        rw [if_neg h]] at he
      exact ih e he

lemma lastWrites_write : ∀ l : List MemoryWritingEntry,
    ∀ e ∈ lastWritesSpec l, e.entry.atype = AccessType.Write := by
  intro l
  induction l with
  | nil => intro e he; simp [lastWritesSpec] at he
  | cons a rest ih =>
    intro e he
    by_cases h : (decide (a.entry.atype = AccessType.Write)
        && ! decide (cellOfW a ∈ rest.map cellOfW)) = true
    · rw [show lastWritesSpec (a :: rest) = a :: lastWritesSpec rest from by
        show (if _ then _ else _) = _
        rw [if_pos h]] at he
      rcases List.mem_cons.mp he with hea | het
      · rw [hea]; exact of_decide_eq_true (band_true_left h)
      · exact ih e het
    · rw [show lastWritesSpec (a :: rest) = lastWritesSpec rest from by
        show (if _ then _ else _) = _
        rw [if_neg h]] at he
      exact ih e he

/-- On cell-clustered input, "the next entry addresses a different cell"
(what the scan checks) coincides with "no following entry shares the cell"
(what the spec asserts). -/
lemma finalizeList_eq_lastWrites : ∀ l : List MemoryWritingEntry,
    grouped (l.map cellOfW) = true → finalizeList l = lastWritesSpec l := by
  intro l
  induction l with
  | nil => intro _; rfl
  | cons e t ih =>
    intro hg
    cases t with
    | nil => simp [finalizeList, lastWritesSpec, finalizeHere]
    | cons f r =>
      have hg' := grouped_cons_cons (cellOfW e) (cellOfW f)
        (r.map cellOfW) (by simpa using hg)
      have ihr := ih (by simpa using hg'.2)
      have hcond : finalizeHere e (f :: r) = (decide (e.entry.atype = AccessType.Write)
          && ! decide (cellOfW e ∈ (f :: r).map cellOfW)) := by
        show (decide (e.entry.atype = AccessType.Write) && ! e.isSameMemoryAddress f) = _
        congr 1
        rcases hg'.1 with h1 | h1
        · have hmem : cellOfW e ∈ (f :: r).map cellOfW := by
            rw [h1]; simp
          rw [show e.isSameMemoryAddress f = true from (isSameMemoryAddress_iff e f).mpr h1,
            decide_eq_true hmem]
        · have hne : cellOfW e ≠ cellOfW f := by
            intro hEq
            exact h1 (by rw [hEq]; simp)
          have hsame : e.isSameMemoryAddress f = false := by
            rw [Bool.eq_false_iff]
            intro hs
            exact hne ((isSameMemoryAddress_iff e f).mp hs)
          have hmem : decide (cellOfW e ∈ (f :: r).map cellOfW) = false :=
            decide_eq_false (by simpa using h1)
          rw [hsame, hmem]
      have hfl : finalizeList (e :: f :: r)
          = if finalizeHere e (f :: r) then e :: finalizeList (f :: r)
            else finalizeList (f :: r) := rfl
      have hlw : lastWritesSpec (e :: f :: r)
          = if decide (e.entry.atype = AccessType.Write)
              && ! decide (cellOfW e ∈ (f :: r).map cellOfW) then
              e :: lastWritesSpec (f :: r)
            else lastWritesSpec (f :: r) := rfl
      rw [hfl, hlw, hcond, ihr]

lemma lastWrites_cells_nodup : ∀ l : List MemoryWritingEntry,
    ((lastWritesSpec l).map cellOfW).Nodup := by
  intro l
  induction l with
  | nil => exact List.nodup_nil
  | cons a t ih =>
    by_cases h : (decide (a.entry.atype = AccessType.Write)
        && ! decide (cellOfW a ∈ t.map cellOfW)) = true
    · rw [show lastWritesSpec (a :: t) = a :: lastWritesSpec t from by
        show (if _ then _ else _) = _
        rw [if_pos h]]
      rw [List.map_cons, List.nodup_cons]
      refine ⟨?_, ih⟩
      intro hmem
      have hnm : ¬ (cellOfW a ∈ t.map cellOfW) := by simpa using band_true_right h
      exact hnm (((lastWrites_sublist t).map cellOfW).subset hmem)
    · rw [show lastWritesSpec (a :: t) = lastWritesSpec t from by
        show (if _ then _ else _) = _
        rw [if_neg h]]
      exact ih

/-- An entry selected by the spec-side predicate really is the final entry of
its cell: the per-cell restriction of the list ends at it. -/
lemma lastWrites_getLast : ∀ (l : List MemoryWritingEntry) (e : MemoryWritingEntry),
    e ∈ lastWritesSpec l →
    (l.filter (fun y => decide (cellOfW y = cellOfW e))).getLast? = some e := by
  intro l
  induction l with
  | nil => intro e he; simp [lastWritesSpec] at he
  | cons a t ih =>
    intro e he
    by_cases hc : (decide (a.entry.atype = AccessType.Write)
        && ! decide (cellOfW a ∈ t.map cellOfW)) = true
    · rw [show lastWritesSpec (a :: t) = a :: lastWritesSpec t from by
        show (if _ then _ else _) = _
        rw [if_pos hc]] at he
      rcases List.mem_cons.mp he with hea | het
      · subst hea
        have hnm : ¬ (cellOfW e ∈ t.map cellOfW) := by simpa using band_true_right hc
        have hft : t.filter (fun y => decide (cellOfW y = cellOfW e)) = [] := by
          rw [List.filter_eq_nil_iff]
          intro x hx hdx
          exact hnm (by rw [← of_decide_eq_true hdx]; exact List.mem_map_of_mem cellOfW hx)
        rw [List.filter_cons, if_pos (decide_eq_true rfl), hft, List.getLast?_singleton]
      · have hmem_t : e ∈ t := (lastWrites_sublist t).subset het
        by_cases hca : cellOfW a = cellOfW e
        · exfalso
          have hnm : ¬ (cellOfW a ∈ t.map cellOfW) := by simpa using band_true_right hc
          exact hnm (by rw [hca]; exact List.mem_map_of_mem cellOfW hmem_t)
        · rw [List.filter_cons, if_neg (by simpa using hca)]
          exact ih e het
    · rw [show lastWritesSpec (a :: t) = lastWritesSpec t from by
        show (if _ then _ else _) = _
        rw [if_neg hc]] at he
      by_cases hca : cellOfW a = cellOfW e
      · rw [List.filter_cons, if_pos (decide_eq_true hca)]
        have hih := ih e he
        rcases hft : t.filter (fun y => decide (cellOfW y = cellOfW e)) with _ | ⟨b, t'⟩
        · rw [hft] at hih; simp at hih
        · rw [hft] at hih
          rw [List.getLast?_cons_cons]
          exact hih
      · rw [List.filter_cons, if_neg (by simpa using hca)]
        exact ih e he

/-- C4 (amended).  On a cell-clustered writing-entry list (the pre-grouping
the source assumes), the scan counts an entry iff it is the last write to its
cell (a `Write` with no following entry sharing its cell): the count is the
number of such entries, the set is exactly their `(location_type, offset)`
pairs, and those pairs are pairwise distinct (one per cell). -/
theorem claim4_finalize_counting (l : List MemoryWritingEntry)
    (hg : grouped (l.map cellOfW) = true) :
    countRestMemoryFinalizeOps l
      = ((lastWritesSpec l).length, ((lastWritesSpec l).map cellOfW).toFinset)
    ∧ (∀ e ∈ lastWritesSpec l, e.entry.atype = AccessType.Write)
    ∧ ((lastWritesSpec l).map cellOfW).Nodup
    ∧ (lastWritesSpec l).Sublist l := by
  refine ⟨?_, lastWrites_write l, lastWrites_cells_nodup l, lastWrites_sublist l⟩
  rw [countRest_eq_finalizeList l, finalizeList_eq_lastWrites l hg]

/-- C4 counterexample.  On the interleaved resolved table coming from
`mtInterleaved` the scan's peek test counts the first write to `(Heap,0)`
(its immediate successor is the `(Heap,1)` entry) even though a later entry
writes `(Heap,0)` again: the count is 3 while the number of last-writes (one
per cell) is 2. -/
theorem claim4_counterexample :
    (countRestMemoryFinalizeOps (memoryWritingTableFrom (fun _ => 100) false 0
        mtInterleaved)).1 = 3
    ∧ (lastWritesSpec (memoryWritingTableFrom (fun _ => 100) false 0 mtInterleaved)).length = 2
    ∧ (countRestMemoryFinalizeOps (memoryWritingTableFrom (fun _ => 100) false 0
        mtInterleaved)).1
      ≠ (lastWritesSpec (memoryWritingTableFrom (fun _ => 100) false 0
        mtInterleaved)).length := by
  refine ⟨by decide, by decide, by decide⟩

/-- Witness for C4 (amended) on the cell-clustered table resolved from
`mtGrouped`. -/
theorem claim4_witness :
    countRestMemoryFinalizeOps (memoryWritingTableFrom (fun _ => 100) false 0 mtGrouped)
      = ((lastWritesSpec (memoryWritingTableFrom (fun _ => 100) false 0 mtGrouped)).length,
        ((lastWritesSpec (memoryWritingTableFrom (fun _ => 100) false 0 mtGrouped)).map
          cellOfW).toFinset) :=
  (claim4_finalize_counting (memoryWritingTableFrom (fun _ => 100) false 0 mtGrouped)
    (by decide)).1

/-- C10 (amended).  The scan never counts an `Init` (or `Read`) entry: every
counted entry is a `Write`, the returned count/set are exactly those of the
counted entries, and every set member is witnessed by a `Write` in the list.
The per-cell consequence — a cell whose last retained entry is an `Init`
contributes nothing — holds under the cell-clustering the source assumes. -/
theorem claim10_init_never_counted (l : List MemoryWritingEntry) :
    (∀ e ∈ finalizeList l, e.entry.atype = AccessType.Write)
    ∧ countRestMemoryFinalizeOps l
        = ((finalizeList l).length, ((finalizeList l).map cellOfW).toFinset)
    ∧ (∀ p ∈ (countRestMemoryFinalizeOps l).2,
        ∃ e ∈ l, e.entry.atype = AccessType.Write ∧ cellOfW e = p)
    ∧ (grouped (l.map cellOfW) = true →
        ∀ c x, (l.filter (fun y => decide (cellOfW y = c))).getLast? = some x →
          x.entry.atype = AccessType.Init → c ∉ (countRestMemoryFinalizeOps l).2) := by
  refine ⟨finalizeList_write l, countRest_eq_finalizeList l, ?_, ?_⟩
  · intro p hp
    rw [countRest_eq_finalizeList l] at hp
    simp only [List.mem_toFinset] at hp
    obtain ⟨e, he, rfl⟩ := List.mem_map.mp hp
    exact ⟨e, (finalizeList_sublist l).subset he, finalizeList_write l e he, rfl⟩
  · intro hg c x hlastx hinit hmem
    rw [countRest_eq_finalizeList l, finalizeList_eq_lastWrites l hg] at hmem
    simp only [List.mem_toFinset] at hmem
    obtain ⟨e, he, hce⟩ := List.mem_map.mp hmem
    have hl := lastWrites_getLast l e he
    rw [hce] at hl
    rw [hlastx] at hl
    have hxe : x = e := by
      rw [Option.some.injEq] at hl
      exact hl
    have hwr := lastWrites_write l e he
    rw [← hxe] at hwr
    rw [hinit] at hwr
    exact AccessType.noConfusion hwr

/-- A writing-entry list where cell `(Heap,0)` is written at `eid = 1`, cell
`(Heap,1)` is written at `eid = 2`, and `(Heap,0)` then carries an `Init`
entry at `eid = 5`. -/
def wlInitLast : List MemoryWritingEntry :=
  [⟨0, ⟨LocationType.Heap, 0, 1, AccessType.Write, 0⟩, 100⟩,
   ⟨1, ⟨LocationType.Heap, 1, 2, AccessType.Write, 0⟩, 100⟩,
   ⟨2, ⟨LocationType.Heap, 0, 5, AccessType.Init, 0⟩, 100⟩]

/-- C10 counterexample.  In `wlInitLast` the last retained entry of cell
`(Heap,0)` is an `Init`, yet the cell appears in the returned set: the scan
counted the *earlier* write to `(Heap,0)` because its immediate successor
addresses a different cell.  The per-cell consequence stated by the claim
fails on non-clustered lists. -/
theorem claim10_counterexample :
    ((wlInitLast.filter (fun y => decide (cellOfW y = (LocationType.Heap, 0)))).getLast?).map
        (fun e => e.entry.atype) = some AccessType.Init
    ∧ (LocationType.Heap, 0) ∈ (countRestMemoryFinalizeOps wlInitLast).2 := by
  refine ⟨by decide, by decide⟩

/-- A cell-clustered writing-entry list whose `(Heap,0)` block ends in an
`Init` entry. -/
def wlGroupedInit : List MemoryWritingEntry :=
  [⟨0, ⟨LocationType.Heap, 0, 1, AccessType.Write, 0⟩, 5⟩,
   ⟨1, ⟨LocationType.Heap, 0, 5, AccessType.Init, 0⟩, 100⟩,
   ⟨2, ⟨LocationType.Heap, 1, 2, AccessType.Write, 0⟩, 100⟩]

/-- Witness for C10 (amended): on a clustered list whose `(Heap,0)` block ends
in an `Init`, the cell is absent from the returned set. -/
theorem claim10_witness :
    grouped (wlGroupedInit.map cellOfW) = true
    ∧ (wlGroupedInit.filter (fun y => decide (cellOfW y = (LocationType.Heap, 0)))).getLast?
        = some ⟨1, ⟨LocationType.Heap, 0, 5, AccessType.Init, 0⟩, 100⟩
    ∧ (LocationType.Heap, 0) ∉ (countRestMemoryFinalizeOps wlGroupedInit).2 := by
  refine ⟨by decide, by decide, ?_⟩
  exact (claim10_init_never_counted wlGroupedInit).2.2.2 (by decide) (LocationType.Heap, 0)
    ⟨1, ⟨LocationType.Heap, 0, 5, AccessType.Init, 0⟩, 100⟩ (by decide) (by decide)

/-- `InitializationState` of `crates/specs/src/state.rs` at value types
`<u32, BigUint>`.  In the source the `jops` field exists only under the
continuation feature (the non-continuation variant carries a phantom in its
place); here the field is always present and simply unused when the mode flag
is false. -/
structure InitializationState where
  eid : Nat
  fid : Nat
  iid : Nat
  frame_id : Nat
  sp : Nat
  host_public_inputs : Nat
  context_in_index : Nat
  context_out_index : Nat
  external_host_call_call_index : Nat
  initial_memory_pages : Nat
  maximal_memory_pages : Nat
  jops : Nat
  deriving DecidableEq, Repr

/-- The fields of `EventTableEntry` read by `assign.rs`. -/
structure EventTableEntry where
  eid : Nat
  fid : Nat
  iid : Nat
  sp : Nat
  last_jump_eid : Nat
  allocated_memory_pages : Nat
  deriving DecidableEq, Repr

/-- The per-opcode classification functions reached through `op_configs` and
`get_instruction(itable)`; spec §6 lists them as the external interface
(`memory_writing_ops`, `jops`, and the four boolean predicates).  They are
functions of the step once the instruction table is fixed. -/
structure OpEnv where
  memory_writing_ops : EventTableEntry → Nat
  jops : EventTableEntry → Nat
  is_host_public_input : EventTableEntry → Bool
  is_context_input_op : EventTableEntry → Bool
  is_context_output_op : EventTableEntry → Bool
  is_external_host_call : EventTableEntry → Bool

/-- The running counters threaded by the status fold of `assign_entries`. -/
structure FoldState where
  host_public_inputs : Nat
  context_in_index : Nat
  context_out_index : Nat
  external_host_call_call_index : Nat
  rest_mops : Nat
  jops : Nat
  deriving DecidableEq, Repr

/-- `Status` as populated by `assign_entries` (the `itable` back-reference is
omitted: it carries no data used here). -/
structure Status where
  eid : Nat
  fid : Nat
  iid : Nat
  sp : Nat
  last_jump_eid : Nat
  allocated_memory_pages : Nat
  rest_mops : Nat
  jops : Nat
  host_public_inputs : Nat
  context_in_index : Nat
  context_out_index : Nat
  external_host_call_call_index : Nat
  deriving DecidableEq, Repr

/-- The snapshot `assign_entries` builds for a step *before* applying the
step's updates. -/
def mkStatus (e : EventTableEntry) (s : FoldState) : Status :=
  { eid := e.eid, fid := e.fid, iid := e.iid, sp := e.sp,
    last_jump_eid := e.last_jump_eid,
    allocated_memory_pages := e.allocated_memory_pages,
    rest_mops := s.rest_mops, jops := s.jops,
    host_public_inputs := s.host_public_inputs,
    context_in_index := s.context_in_index,
    context_out_index := s.context_out_index,
    external_host_call_call_index := s.external_host_call_call_index }

/-- One step of the status fold: bump each cursor whose predicate fires
(`u32` increments), subtract the step's memory-write count from `rest_mops`
(`u32` subtraction), and add (continuation) or subtract (otherwise) the
step's control-return count to `jops`.  `jops` is a `BigUint`; its
subtraction panics when the result would be negative, modelled by `none`. -/
def statusStep (continuation : Bool) (env : OpEnv) (s : FoldState) (e : EventTableEntry) :
    Option FoldState :=
  let h := if env.is_host_public_input e then wadd s.host_public_inputs 1
    else s.host_public_inputs
  let ci := if env.is_context_input_op e then wadd s.context_in_index 1
    else s.context_in_index
  let co := if env.is_context_output_op e then wadd s.context_out_index 1
    else s.context_out_index
  let ex := if env.is_external_host_call e then wadd s.external_host_call_call_index 1
    else s.external_host_call_call_index
  let rm := wsub s.rest_mops (env.memory_writing_ops e)
  if continuation then
    some ⟨h, ci, co, ex, rm, s.jops + env.jops e⟩
  else if env.jops e ≤ s.jops then
    some ⟨h, ci, co, ex, rm, s.jops - env.jops e⟩
  else none

/-- The sequential status fold of `assign_entries` (lines 288-347): emit the
pre-step snapshot, then apply the step's counter updates. -/
def statusFold (continuation : Bool) (env : OpEnv) (s : FoldState) :
    List EventTableEntry → Option (List Status × FoldState)
  | [] => some ([], s)
  | e :: rest =>
    match statusStep continuation env s e with
    | none => none
    | some s2 =>
      match statusFold continuation env s2 rest with
      | none => none
      | some (sts, fin) => some (mkStatus e s :: sts, fin)

/-- The fold's starting counters: the four cursors come from the incoming
checkpoint, `rest_mops`/`jops` are the values passed to `assign_entries`. -/
def initFoldState (st : InitializationState) (rest_mops jops : Nat) : FoldState :=
  ⟨st.host_public_inputs, st.context_in_index, st.context_out_index,
   st.external_host_call_call_index, rest_mops, jops⟩

/-- `compute_rest_mops_and_jops` of `assign.rs`: sum every step's
memory-write count (`u32` accumulation) and control-return count (`BigUint`
accumulation); under continuation return the incoming checkpoint's `jops`
instead of the sum. -/
def computeRestMopsAndJops (continuation : Bool) (env : OpEnv)
    (entries : List EventTableEntry) (st : InitializationState) : Nat × Nat :=
  let pair := entries.foldl
    (fun acc e => (wadd acc.1 (env.memory_writing_ops e), acc.2 + env.jops e)) (0, 0)
  (pair.1, if continuation then st.jops else pair.2)

/-- The abortable part of `assign_entries`: the early return on an empty step
list, the status fold (whose `BigUint` underflow panics), and the four
`assert_eq!` checks of the terminal cursors against the expected
post-checkpoint.  `true` means the function completes. -/
def assignEntriesResult (continuation : Bool) (env : OpEnv)
    (st post : InitializationState) (rest_mops jops : Nat)
    (entries : List EventTableEntry) : Bool :=
  if entries.isEmpty then true
  else
    match statusFold continuation env (initFoldState st rest_mops jops) entries with
    | none => false
    | some (_, fin) =>
      decide (post.host_public_inputs = fin.host_public_inputs)
      && decide (post.context_in_index = fin.context_in_index)
      && decide (post.context_out_index = fin.context_out_index)
      && decide (post.external_host_call_call_index = fin.external_host_call_call_index)

/-- The `while ctx.offset < capability * ROWS` loop of
`assign_padding_and_post_initialization_state`, tracked in units of
`EVENT_TABLE_ENTRY_ROWS`: starting after `n` written step-states, write the
post state until the capacity is reached. -/
def assignStepStatesWhile (capability : Nat) (post : InitializationState) (n : Nat) :
    List InitializationState :=
  if n < capability then post :: assignStepStatesWhile capability post (n + 1) else []
termination_by capability - n

/-- `assign_padding_and_post_initialization_state` of `assign.rs`: the
padding loop followed by the single final step-state write. -/
def assignPaddingAndPostInitializationState (capability n : Nat)
    (post : InitializationState) : List InitializationState :=
  assignStepStatesWhile capability post n ++ [post]

/-- Total memory-write count of a step list. -/
def sumMops (env : OpEnv) (l : List EventTableEntry) : Nat :=
  (l.map env.memory_writing_ops).sum

/-- Total control-return count of a step list. -/
def sumJops (env : OpEnv) (l : List EventTableEntry) : Nat :=
  (l.map env.jops).sum

/-- Default event entry (only a `getD` fallback). -/
def dEvent : EventTableEntry := ⟨0, 0, 0, 0, 0, 0⟩

/-- Default status (only a `getD` fallback). -/
def dStatus : Status := mkStatus dEvent ⟨0, 0, 0, 0, 0, 0⟩

lemma wadd_mod_one (x : Nat) : wadd (x % u32Size) 1 = (x + 1) % u32Size := by
  unfold wadd
  rw [Nat.mod_add_mod]

lemma wsub_exact (a b : Nat) (hb : b ≤ a) (ha : a < u32Size) : wsub a b = a - b := by
  unfold wsub u32Size at *
  omega

lemma statusStep_fields {continuation : Bool} {env : OpEnv} {s : FoldState}
    {e : EventTableEntry} {s2 : FoldState}
    (h : statusStep continuation env s e = some s2) :
    s2.host_public_inputs
      = (if env.is_host_public_input e then wadd s.host_public_inputs 1
        else s.host_public_inputs)
    ∧ s2.context_in_index
      = (if env.is_context_input_op e then wadd s.context_in_index 1
        else s.context_in_index)
    ∧ s2.context_out_index
      = (if env.is_context_output_op e then wadd s.context_out_index 1
        else s.context_out_index)
    ∧ s2.external_host_call_call_index
      = (if env.is_external_host_call e then wadd s.external_host_call_call_index 1
        else s.external_host_call_call_index)
    ∧ s2.rest_mops = wsub s.rest_mops (env.memory_writing_ops e)
    ∧ (continuation = true → s2.jops = s.jops + env.jops e)
    ∧ (continuation = false → env.jops e ≤ s.jops ∧ s2.jops = s.jops - env.jops e) := by
  by_cases hc : continuation = true
  · subst hc
    have h2 := Option.some.inj (by simpa [statusStep] using h.symm)
    rw [h2]
    refine ⟨rfl, rfl, rfl, rfl, rfl, fun _ => rfl, fun hf => Bool.noConfusion hf⟩
  · have hc' : continuation = false := Bool.eq_false_iff.mpr hc
    subst hc'
    by_cases hj : env.jops e ≤ s.jops
    · have h2 := Option.some.inj (by simpa [statusStep, hj] using h.symm)
      rw [h2]
      exact ⟨rfl, rfl, rfl, rfl, rfl, fun hf => Bool.noConfusion hf, fun _ => ⟨hj, rfl⟩⟩
    · exfalso
      have : statusStep false env s e = none := by
        simp [statusStep, hj]
      rw [this] at h
      exact Option.noConfusion h

/-- Master characterisation of a successful status fold: there is an explicit
trajectory of fold states, the emitted snapshots are the pre-step snapshots
along it, and the final state is its endpoint. -/
lemma statusFold_traj (continuation : Bool) (env : OpEnv) :
    ∀ (entries : List EventTableEntry) (s : FoldState) (sts : List Status) (fin : FoldState),
    statusFold continuation env s entries = some (sts, fin) →
    sts.length = entries.length
    ∧ ∃ f : Nat → FoldState, f 0 = s
      ∧ (∀ i, i < entries.length →
          statusStep continuation env (f i) (entries.getD i dEvent) = some (f (i + 1)))
      ∧ (∀ i, i < entries.length → sts.getD i dStatus = mkStatus (entries.getD i dEvent) (f i))
      ∧ fin = f entries.length := by
  intro entries
  induction entries with
  | nil =>
    intro s sts fin h
    have h2 : (([], s) : List Status × FoldState) = (sts, fin) := Option.some.inj h
    obtain ⟨h3, h4⟩ := Prod.mk.inj h2
    refine ⟨by rw [← h3]; rfl, fun _ => s, rfl, ?_, ?_, by rw [← h4]⟩
    · intro i hi; simp at hi
    · intro i hi; simp at hi
  | cons e rest ih =>
    intro s sts fin h
    simp only [statusFold] at h
    split at h
    · exact Option.noConfusion h
    · rename_i s2 hstep
      split at h
      · exact Option.noConfusion h
      · rename_i sts2 fin2 hrec
        have h2 := Option.some.inj h
        obtain ⟨h3, h4⟩ := Prod.mk.inj h2
        obtain ⟨hlen, f', hf0, hfstep, hfsnap, hffin⟩ := ih s2 sts2 fin2 hrec
        refine ⟨?_, fun i => match i with | 0 => s | (i + 1) => f' i, rfl, ?_, ?_, ?_⟩
        · rw [← h3]
          simp [hlen]
        · intro i hi
          cases i with
          | zero =>
            show statusStep continuation env s ((e :: rest).getD 0 dEvent) = some (f' 0)
            rw [hf0]
            exact hstep
          | succ i =>
            show statusStep continuation env (f' i) ((e :: rest).getD (i + 1) dEvent)
              = some (f' (i + 1))
            have hgd : (e :: rest).getD (i + 1) dEvent = rest.getD i dEvent := rfl
            rw [hgd]
            exact hfstep i (by simpa using hi)
        · intro i hi
          cases i with
          | zero =>
            show sts.getD 0 dStatus = mkStatus ((e :: rest).getD 0 dEvent) s
            rw [← h3]
            rfl
          | succ i =>
            show sts.getD (i + 1) dStatus = mkStatus ((e :: rest).getD (i + 1) dEvent) (f' i)
            rw [← h3]
            show sts2.getD i dStatus = _
            exact hfsnap i (by simpa using hi)
        · rw [← h4, hffin]
          rfl

lemma sumMops_drop_le (env : OpEnv) (l : List EventTableEntry) (i : Nat) :
    sumMops env (l.drop i) ≤ sumMops env l := by
  unfold sumMops
  rw [List.map_drop]
  have h := List.sum_take_add_sum_drop (l.map env.memory_writing_ops) i
  omega

/-- Generic cursor tracking along a fold trajectory: a counter that starts
below `2^32` and is bumped (wrapping) exactly on the steps whose predicate
fires equals, at stage `i`, its start plus the number of firing steps before
`i`, reduced mod `2^32`. -/
lemma cursor_track (entries : List EventTableEntry)
    (f : Nat → FoldState) (g : FoldState → Nat) (p : EventTableEntry → Bool)
    (hstep : ∀ i, i < entries.length →
      g (f (i + 1)) = if p (entries.getD i dEvent) then wadd (g (f i)) 1 else g (f i))
    (h0 : g (f 0) < u32Size) :
    ∀ i, i ≤ entries.length →
      g (f i) = (g (f 0) + (entries.take i).countP p) % u32Size := by
  intro i
  induction i with
  | zero =>
    intro _
    simp [Nat.mod_eq_of_lt h0]
  | succ i ih =>
    intro hi
    have hi' : i < entries.length := by omega
    have hget : entries[i]? = some (entries.getD i dEvent) := by
      rw [List.getElem?_eq_getElem hi', List.getD_eq_getElem entries dEvent hi']
    rw [hstep i hi', ih (by omega), List.take_succ, List.countP_append, hget]
    by_cases hp : p (entries.getD i dEvent) = true
    · rw [if_pos hp, wadd_mod_one]
      have hc1 : (some (entries.getD i dEvent)).toList = [entries.getD i dEvent] := rfl
      have hc2 : List.countP p [entries.getD i dEvent] = 1 := by
        rw [List.countP_cons, List.countP_nil, if_pos hp]
      rw [hc1, hc2]
      congr 1
    · rw [if_neg hp]
      have hc1 : (some (entries.getD i dEvent)).toList = [entries.getD i dEvent] := rfl
      have hc2 : List.countP p [entries.getD i dEvent] = 0 := by
        rw [List.countP_cons, List.countP_nil, if_neg hp]
      rw [hc1, hc2, Nat.add_zero]

/-- `rest_mops` tracking: starting from the total memory-write count (below
`2^32`), after `i` steps the counter holds exactly the count still owed by
the remaining steps. -/
lemma mops_track (env : OpEnv) (entries : List EventTableEntry) (f : Nat → FoldState)
    (hstep : ∀ i, i < entries.length → (f (i + 1)).rest_mops
      = wsub (f i).rest_mops (env.memory_writing_ops (entries.getD i dEvent)))
    (h0 : (f 0).rest_mops = sumMops env entries)
    (hT : sumMops env entries < u32Size) :
    ∀ i, i ≤ entries.length → (f i).rest_mops = sumMops env (entries.drop i) := by
  intro i
  induction i with
  | zero =>
    intro _
    simpa using h0
  | succ i ih =>
    intro hi
    have hi' : i < entries.length := by omega
    have hdrop : entries.drop i = entries.getD i dEvent :: entries.drop (i + 1) := by
      rw [List.getD_eq_getElem entries dEvent hi']
      exact List.drop_eq_getElem_cons hi'
    have hsum : sumMops env (entries.drop i)
        = env.memory_writing_ops (entries.getD i dEvent) + sumMops env (entries.drop (i + 1)) := by
      rw [hdrop]
      simp [sumMops]
    have hle := sumMops_drop_le env entries i
    rw [hstep i hi', ih (by omega), hsum, wsub_exact]
    · omega
    · omega
    · omega

/-- `jops` tracking under continuation: the counter accumulates the steps'
control-return counts on top of the incoming checkpoint value. -/
lemma jops_track_cont (env : OpEnv) (entries : List EventTableEntry) (f : Nat → FoldState)
    (hstep : ∀ i, i < entries.length →
      statusStep true env (f i) (entries.getD i dEvent) = some (f (i + 1))) :
    ∀ i, i ≤ entries.length → (f i).jops = (f 0).jops + sumJops env (entries.take i) := by
  intro i
  induction i with
  | zero =>
    intro _
    simp [sumJops]
  | succ i ih =>
    intro hi
    have hi' : i < entries.length := by omega
    have hget : entries[i]? = some (entries.getD i dEvent) := by
      rw [List.getElem?_eq_getElem hi', List.getD_eq_getElem entries dEvent hi']
    have hj := ((statusStep_fields (hstep i hi')).2.2.2.2.2.1) rfl
    rw [hj, ih (by omega)]
    have hsum : sumJops env (entries.take (i + 1))
        = sumJops env (entries.take i) + env.jops (entries.getD i dEvent) := by
      rw [List.take_succ, hget]
      simp [sumJops]
    rw [hsum]
    omega

/-- `jops` tracking without continuation: starting from the total
control-return count, after `i` steps the counter holds the count of the
remaining steps; in particular no subtraction underflows. -/
lemma jops_track_noncont (env : OpEnv) (entries : List EventTableEntry) (f : Nat → FoldState)
    (hstep : ∀ i, i < entries.length →
      statusStep false env (f i) (entries.getD i dEvent) = some (f (i + 1)))
    (h0 : (f 0).jops = sumJops env entries) :
    ∀ i, i ≤ entries.length → (f i).jops = sumJops env (entries.drop i) := by
  intro i
  induction i with
  | zero =>
    intro _
    simpa using h0
  | succ i ih =>
    intro hi
    have hi' : i < entries.length := by omega
    have hdrop : entries.drop i = entries.getD i dEvent :: entries.drop (i + 1) := by
      rw [List.getD_eq_getElem entries dEvent hi']
      exact List.drop_eq_getElem_cons hi'
    have hsum : sumJops env (entries.drop i)
        = env.jops (entries.getD i dEvent) + sumJops env (entries.drop (i + 1)) := by
      rw [hdrop]
      simp [sumJops]
    have hj := ((statusStep_fields (hstep i hi')).2.2.2.2.2.2) rfl
    rw [hj.2, ih (by omega), hsum]
    omega

lemma statusFold_isSome_cont (env : OpEnv) :
    ∀ (entries : List EventTableEntry) (s : FoldState),
    (statusFold true env s entries).isSome = true := by
  intro entries
  induction entries with
  | nil => intro s; rfl
  | cons e rest ih =>
    intro s
    simp only [statusFold]
    split
    · rename_i hs
      exfalso
      simp [statusStep] at hs
    · rename_i s2 hs
      split
      · rename_i hrec
        have h2 := ih s2
        rw [hrec] at h2
        simp at h2
      · rfl

lemma statusFold_isSome_noncont (env : OpEnv) :
    ∀ (entries : List EventTableEntry) (s : FoldState),
    sumJops env entries ≤ s.jops →
    (statusFold false env s entries).isSome = true := by
  intro entries
  induction entries with
  | nil => intro s _; rfl
  | cons e rest ih =>
    intro s hj
    have hsum : sumJops env (e :: rest) = env.jops e + sumJops env rest := by
      simp [sumJops]
    have hj1 : env.jops e ≤ s.jops := by omega
    simp only [statusFold]
    split
    · rename_i hs
      exfalso
      simp [statusStep, hj1] at hs
    · rename_i s2 hs
      have hs2 := ((statusStep_fields hs).2.2.2.2.2.2) rfl
      have hrest : sumJops env rest ≤ s2.jops := by omega
      split
      · rename_i hrec
        have h2 := ih s2 hrest
        rw [hrec] at h2
        simp at h2
      · rfl

lemma compute_pair (env : OpEnv) :
    ∀ (l : List EventTableEntry) (a b : Nat), a < u32Size →
    List.foldl (fun acc e => (wadd acc.1 (env.memory_writing_ops e), acc.2 + env.jops e))
        (a, b) l
      = ((a + sumMops env l) % u32Size, b + sumJops env l) := by
  intro l
  induction l with
  | nil =>
    intro a b ha
    simp [sumMops, sumJops, Nat.mod_eq_of_lt ha]
  | cons e rest ih =>
    intro a b ha
    show List.foldl _ (wadd a (env.memory_writing_ops e), b + env.jops e) rest = _
    rw [ih (wadd a (env.memory_writing_ops e)) (b + env.jops e)
      (by unfold wadd u32Size; omega)]
    have h1 : sumMops env (e :: rest) = env.memory_writing_ops e + sumMops env rest := by
      simp [sumMops]
    have h2 : sumJops env (e :: rest) = env.jops e + sumJops env rest := by
      simp [sumJops]
    rw [h1, h2]
    have h3 : (wadd a (env.memory_writing_ops e) + sumMops env rest) % u32Size
        = (a + (env.memory_writing_ops e + sumMops env rest)) % u32Size := by
      unfold wadd u32Size
      omega
    rw [h3]
    have h4 : b + env.jops e + sumJops env rest = b + (env.jops e + sumJops env rest) := by
      omega
    rw [h4]

/-- Exact (overflow-free) cursor characterisation plus monotonicity, given
room below `2^32`. -/
lemma cursor_full (entries : List EventTableEntry)
    (f : Nat → FoldState) (g : FoldState → Nat) (p : EventTableEntry → Bool)
    (hstepg : ∀ i, i < entries.length →
      g (f (i + 1)) = if p (entries.getD i dEvent) then wadd (g (f i)) 1 else g (f i))
    (hov : g (f 0) + entries.length < u32Size) :
    (∀ i, i ≤ entries.length → g (f i) = g (f 0) + (entries.take i).countP p)
    ∧ (∀ i, i + 1 < entries.length → g (f i) ≤ g (f (i + 1))
        ∧ (p (entries.getD i dEvent) = true → g (f (i + 1)) = g (f i) + 1)) := by
  have h0 : g (f 0) < u32Size := by omega
  have htrack := cursor_track entries f g p hstepg h0
  have hexact : ∀ i, i ≤ entries.length → g (f i) = g (f 0) + (entries.take i).countP p := by
    intro i hi
    rw [htrack i hi]
    have hcle0 : (entries.take i).countP p ≤ (entries.take i).length :=
      List.countP_le_length p
    have hlt : (entries.take i).length ≤ i := by
      rw [List.length_take]
      omega
    exact Nat.mod_eq_of_lt (by omega)
  refine ⟨hexact, ?_⟩
  intro i hi
  have h1 := hexact i (by omega)
  have h2 := hexact (i + 1) (by omega)
  have hget : entries[i]? = some (entries.getD i dEvent) := by
    rw [List.getElem?_eq_getElem (show i < entries.length by omega),
      List.getD_eq_getElem entries dEvent (show i < entries.length by omega)]
  have hsucc : (entries.take (i + 1)).countP p
      = (entries.take i).countP p + (if p (entries.getD i dEvent) then 1 else 0) := by
    rw [List.take_succ, List.countP_append, hget]
    have hc1 : (some (entries.getD i dEvent)).toList = [entries.getD i dEvent] := rfl
    rw [hc1, List.countP_cons, List.countP_nil]
    omega
  constructor
  · rw [h1, h2, hsucc]
    split <;> omega
  · intro hp
    rw [h1, h2, hsucc, if_pos hp]
    omega

/-- C5 (amended).  On a nonempty step list whose status fold completes,
`assign_entries` completes iff the four terminal cursor counters equal the
corresponding fields of the supplied post-checkpoint; these four
`assert_eq!` checks are the only assertions — terminal `jops`/`rest_mops`
are *not* asserted there (in non-continuation mode they are pinned to zero by
fixed constants elsewhere, and the post-checkpoint has no such fields). -/
theorem claim5_assert_cursors (continuation : Bool) (env : OpEnv)
    (st post : InitializationState) (rm j0 : Nat) (entries : List EventTableEntry)
    (sts : List Status) (fin : FoldState)
    (hne : entries ≠ [])
    (hf : statusFold continuation env (initFoldState st rm j0) entries = some (sts, fin)) :
    assignEntriesResult continuation env st post rm j0 entries = true
      ↔ (post.host_public_inputs = fin.host_public_inputs
        ∧ post.context_in_index = fin.context_in_index
        ∧ post.context_out_index = fin.context_out_index
        ∧ post.external_host_call_call_index = fin.external_host_call_call_index) := by
  cases entries with
  | nil => exact absurd rfl hne
  | cons e rest =>
    rw [show assignEntriesResult continuation env st post rm j0 (e :: rest)
        = (match statusFold continuation env (initFoldState st rm j0) (e :: rest) with
          | none => false
          | some (_, fin) =>
            decide (post.host_public_inputs = fin.host_public_inputs)
            && decide (post.context_in_index = fin.context_in_index)
            && decide (post.context_out_index = fin.context_out_index)
            && decide (post.external_host_call_call_index = fin.external_host_call_call_index))
        from rfl, hf]
    simp [Bool.and_eq_true, decide_eq_true_eq, and_assoc]

/-- Step used by the C5/C7/C8 concrete instances. -/
def e5 : EventTableEntry := ⟨1, 0, 0, 0, 0, 0⟩

/-- Classification functions for the C5 instances: one memory write and two
control-return operations per step, no cursor predicate fires. -/
def env5 : OpEnv :=
  ⟨fun _ => 1, fun _ => 2, fun _ => false, fun _ => false, fun _ => false, fun _ => false⟩

/-- Incoming checkpoint of the C5 instances (all counters zero). -/
def init5 : InitializationState := ⟨1, 0, 0, 0, 0, 0, 0, 0, 0, 0, 0, 0⟩

/-- Expected post-checkpoint of the C5 instances (all counters zero). -/
def post5 : InitializationState := ⟨2, 0, 0, 0, 0, 0, 0, 0, 0, 0, 0, 0⟩

/-- C5 counterexample.  `assign_entries` takes `rest_mops` and `jops` as
plain arguments; called (non-continuation) with `rest_mops = 6`, `jops = 9`
on one step that consumes 1 memory write and 2 control-returns, the terminal
values are 5 and 7 — they differ from zero and from every field of the
supplied post-checkpoint — yet all four cursor asserts pass and the function
completes; no abort occurs.  The claimed assertion on terminal
`jops`/`rest_mops` does not exist in the code. -/
theorem claim5_counterexample :
    assignEntriesResult false env5 init5 post5 6 9 [e5] = true
    ∧ (statusFold false env5 (initFoldState init5 6 9) [e5]).map
        (fun p => (p.2.rest_mops, p.2.jops)) = some (5, 7)
    ∧ (5 : Nat) ≠ 0 ∧ (7 : Nat) ≠ 0 := by
  refine ⟨by decide, by decide, by decide, by decide⟩

/-- Witness for C5 (amended): with matching cursors the function completes. -/
theorem claim5_witness :
    assignEntriesResult false env5 init5 post5 1 2 [e5] = true :=
  (claim5_assert_cursors false env5 init5 post5 1 2 [e5]
    [⟨1, 0, 0, 0, 0, 0, 1, 2, 0, 0, 0, 0⟩] ⟨0, 0, 0, 0, 0, 0⟩
    (by simp) (by decide)).mpr ⟨rfl, rfl, rfl, rfl⟩

/-- C6.  In a completed status fold whose starting cursors leave room below
`2^32`, snapshot `i` carries the step's identity (`eid`) and the counter
values *before* step `i`: each cursor equals its incoming-checkpoint value
plus the number of earlier steps whose predicate fired; the terminal counters
count all steps; and along the fold each cursor is non-decreasing and
increments by exactly 1 on a step whose predicate holds. -/
theorem claim6_cursor_tracking (continuation : Bool) (env : OpEnv)
    (st : InitializationState) (rm j0 : Nat) (entries : List EventTableEntry)
    (sts : List Status) (fin : FoldState)
    (hf : statusFold continuation env (initFoldState st rm j0) entries = some (sts, fin))
    (hov1 : st.host_public_inputs + entries.length < u32Size)
    (hov2 : st.context_in_index + entries.length < u32Size)
    (hov3 : st.context_out_index + entries.length < u32Size)
    (hov4 : st.external_host_call_call_index + entries.length < u32Size) :
    (∀ i, i < entries.length →
      (sts.getD i dStatus).eid = (entries.getD i dEvent).eid
      ∧ (sts.getD i dStatus).host_public_inputs
        = st.host_public_inputs + (entries.take i).countP env.is_host_public_input
      ∧ (sts.getD i dStatus).context_in_index
        = st.context_in_index + (entries.take i).countP env.is_context_input_op
      ∧ (sts.getD i dStatus).context_out_index
        = st.context_out_index + (entries.take i).countP env.is_context_output_op
      ∧ (sts.getD i dStatus).external_host_call_call_index
        = st.external_host_call_call_index
          + (entries.take i).countP env.is_external_host_call)
    ∧ (fin.host_public_inputs
        = st.host_public_inputs + entries.countP env.is_host_public_input
      ∧ fin.context_in_index = st.context_in_index + entries.countP env.is_context_input_op
      ∧ fin.context_out_index
        = st.context_out_index + entries.countP env.is_context_output_op
      ∧ fin.external_host_call_call_index
        = st.external_host_call_call_index + entries.countP env.is_external_host_call)
    ∧ (∀ i, i + 1 < entries.length →
      ((sts.getD i dStatus).host_public_inputs
          ≤ (sts.getD (i + 1) dStatus).host_public_inputs
        ∧ (env.is_host_public_input (entries.getD i dEvent) = true →
          (sts.getD (i + 1) dStatus).host_public_inputs
            = (sts.getD i dStatus).host_public_inputs + 1))
      ∧ ((sts.getD i dStatus).context_in_index ≤ (sts.getD (i + 1) dStatus).context_in_index
        ∧ (env.is_context_input_op (entries.getD i dEvent) = true →
          (sts.getD (i + 1) dStatus).context_in_index
            = (sts.getD i dStatus).context_in_index + 1))
      ∧ ((sts.getD i dStatus).context_out_index
          ≤ (sts.getD (i + 1) dStatus).context_out_index
        ∧ (env.is_context_output_op (entries.getD i dEvent) = true →
          (sts.getD (i + 1) dStatus).context_out_index
            = (sts.getD i dStatus).context_out_index + 1))
      ∧ ((sts.getD i dStatus).external_host_call_call_index
          ≤ (sts.getD (i + 1) dStatus).external_host_call_call_index
        ∧ (env.is_external_host_call (entries.getD i dEvent) = true →
          (sts.getD (i + 1) dStatus).external_host_call_call_index
            = (sts.getD i dStatus).external_host_call_call_index + 1))) := by
  obtain ⟨hlen, f, hf0, hfstep, hfsnap, hffin⟩ :=
    statusFold_traj continuation env entries (initFoldState st rm j0) sts fin hf
  have hh := cursor_full entries f (fun s => s.host_public_inputs) env.is_host_public_input
    (fun i hi => (statusStep_fields (hfstep i hi)).1) (by rw [hf0]; exact hov1)
  have hci := cursor_full entries f (fun s => s.context_in_index) env.is_context_input_op
    (fun i hi => (statusStep_fields (hfstep i hi)).2.1) (by rw [hf0]; exact hov2)
  have hco := cursor_full entries f (fun s => s.context_out_index) env.is_context_output_op
    (fun i hi => (statusStep_fields (hfstep i hi)).2.2.1) (by rw [hf0]; exact hov3)
  have hex := cursor_full entries f (fun s => s.external_host_call_call_index)
    env.is_external_host_call
    (fun i hi => (statusStep_fields (hfstep i hi)).2.2.2.1) (by rw [hf0]; exact hov4)
  refine ⟨?_, ?_, ?_⟩
  · intro i hi
    have hsnap := hfsnap i hi
    have g1 := hh.1 i (by omega)
    have g2 := (hci.1) i (by omega)
    have g3 := (hco.1) i (by omega)
    have g4 := (hex.1) i (by omega)
    rw [hf0] at g1 g2 g3 g4
    rw [hsnap]
    exact ⟨rfl, g1, g2, g3, g4⟩
  · have g1 := hh.1 entries.length le_rfl
    have g2 := hci.1 entries.length le_rfl
    have g3 := hco.1 entries.length le_rfl
    have g4 := hex.1 entries.length le_rfl
    rw [hf0] at g1 g2 g3 g4
    rw [List.take_length] at g1 g2 g3 g4
    rw [hffin]
    exact ⟨g1, g2, g3, g4⟩
  · intro i hi
    have hsnap1 := hfsnap i (by omega)
    have hsnap2 := hfsnap (i + 1) (by omega)
    have g1 := hh.2 i hi
    have g2 := hci.2 i hi
    have g3 := hco.2 i hi
    have g4 := hex.2 i hi
    rw [hsnap1, hsnap2]
    exact ⟨g1, g2, g3, g4⟩

/-- C7.  `jops` threading: under continuation `compute_rest_mops_and_jops`
hands the fold the incoming checkpoint's `jops`, and the fold accumulates
each step's control-return count on top of it; otherwise it hands the fold
the total control-return count of the slice, the fold subtracts each step's
count (never underflowing), snapshot `i` holds the count still owed by the
remaining steps, and the terminal value is exactly 0. -/
theorem claim7_jops_threading (continuation : Bool) (env : OpEnv)
    (st : InitializationState) (entries : List EventTableEntry) :
    (continuation = true →
      (computeRestMopsAndJops true env entries st).2 = st.jops
      ∧ (∀ s0 : FoldState, (statusFold true env s0 entries).isSome = true)
      ∧ (∀ (rm : Nat) (sts : List Status) (fin : FoldState),
          statusFold true env (initFoldState st rm st.jops) entries = some (sts, fin) →
          (∀ i, i < entries.length →
            (sts.getD i dStatus).jops = st.jops + sumJops env (entries.take i))
          ∧ fin.jops = st.jops + sumJops env entries))
    ∧ (continuation = false →
      (computeRestMopsAndJops false env entries st).2 = sumJops env entries
      ∧ (∀ rm : Nat, (statusFold false env
          (initFoldState st rm (sumJops env entries)) entries).isSome = true)
      ∧ (∀ (rm : Nat) (sts : List Status) (fin : FoldState),
          statusFold false env (initFoldState st rm (sumJops env entries)) entries
            = some (sts, fin) →
          (∀ i, i < entries.length →
            (sts.getD i dStatus).jops = sumJops env (entries.drop i))
          ∧ fin.jops = 0)) := by
  constructor
  · intro _
    refine ⟨rfl, fun s0 => statusFold_isSome_cont env entries s0, ?_⟩
    intro rm sts fin hfold
    obtain ⟨hlen, f, hf0, hfstep, hfsnap, hffin⟩ :=
      statusFold_traj true env entries (initFoldState st rm st.jops) sts fin hfold
    have htr := jops_track_cont env entries f hfstep
    constructor
    · intro i hi
      have h1 := htr i (by omega)
      rw [hf0] at h1
      rw [hfsnap i hi]
      exact h1
    · have h1 := htr entries.length le_rfl
      rw [hf0, List.take_length] at h1
      rw [hffin]
      exact h1
  · intro _
    have hcp := compute_pair env entries 0 0 (by norm_num [u32Size])
    refine ⟨?_, ?_, ?_⟩
    · show (List.foldl (fun acc e =>
          (wadd acc.1 (env.memory_writing_ops e), acc.2 + env.jops e)) (0, 0) entries).2 = _
      rw [hcp]
      exact Nat.zero_add _
    · intro rm
      exact statusFold_isSome_noncont env entries (initFoldState st rm (sumJops env entries))
        le_rfl
    · intro rm sts fin hfold
      obtain ⟨hlen, f, hf0, hfstep, hfsnap, hffin⟩ :=
        statusFold_traj false env entries
          (initFoldState st rm (sumJops env entries)) sts fin hfold
      have htr := jops_track_noncont env entries f hfstep (by rw [hf0]; rfl)
      constructor
      · intro i hi
        rw [hfsnap i hi]
        exact htr i (by omega)
      · have h1 := htr entries.length le_rfl
        rw [List.drop_length] at h1
        rw [hffin]
        exact h1

/-- Witness for C7, non-continuation instance: `compute_rest_mops_and_jops`
returns the slice's total control-return count and the fold drains it to 0. -/
theorem claim7_witness :
    (computeRestMopsAndJops false env5 [e5] init5).2 = sumJops env5 [e5]
    ∧ (FoldState.jops ⟨0, 0, 0, 0, 0, 0⟩) = 0 := by
  refine ⟨((claim7_jops_threading false env5 init5 [e5]).2 rfl).1, ?_⟩
  exact (((claim7_jops_threading false env5 init5 [e5]).2 rfl).2.2 1
    [⟨1, 0, 0, 0, 0, 0, 1, 2, 0, 0, 0, 0⟩] ⟨0, 0, 0, 0, 0, 0⟩ (by decide)).2

/-- C8 (amended).  In non-continuation mode `rest_mops` starts at the sum of
all steps' memory-write counts, each step subtracts its own count, snapshot
`i` holds the sum still owed by the remaining steps, and the terminal value
is exactly 0; the counter is non-increasing, and strictly decreases exactly
across the steps whose memory-write count is nonzero. -/
theorem claim8_rest_mops (env : OpEnv) (st : InitializationState)
    (entries : List EventTableEntry)
    (hT : sumMops env entries < u32Size) :
    (computeRestMopsAndJops false env entries st).1 = sumMops env entries
    ∧ (∀ (sts : List Status) (fin : FoldState),
      statusFold false env
          (initFoldState st (sumMops env entries) (sumJops env entries)) entries
        = some (sts, fin) →
      (∀ i, i < entries.length →
        (sts.getD i dStatus).rest_mops = sumMops env (entries.drop i))
      ∧ fin.rest_mops = 0
      ∧ (∀ i, i + 1 < entries.length →
        (sts.getD (i + 1) dStatus).rest_mops ≤ (sts.getD i dStatus).rest_mops
        ∧ (0 < env.memory_writing_ops (entries.getD i dEvent) →
          (sts.getD (i + 1) dStatus).rest_mops < (sts.getD i dStatus).rest_mops))) := by
  have hcp := compute_pair env entries 0 0 (by norm_num [u32Size])
  constructor
  · show (List.foldl (fun acc e =>
        (wadd acc.1 (env.memory_writing_ops e), acc.2 + env.jops e)) (0, 0) entries).1 = _
    rw [hcp]
    show (0 + sumMops env entries) % u32Size = _
    rw [Nat.zero_add]
    exact Nat.mod_eq_of_lt hT
  · intro sts fin hfold
    obtain ⟨hlen, f, hf0, hfstep, hfsnap, hffin⟩ :=
      statusFold_traj false env entries
        (initFoldState st (sumMops env entries) (sumJops env entries)) sts fin hfold
    have htr := mops_track env entries f
      (fun i hi => (statusStep_fields (hfstep i hi)).2.2.2.2.1) (by rw [hf0]; rfl) hT
    refine ⟨?_, ?_, ?_⟩
    · intro i hi
      rw [hfsnap i hi]
      exact htr i (by omega)
    · have h1 := htr entries.length le_rfl
      rw [List.drop_length] at h1
      rw [hffin]
      exact h1
    · intro i hi
      have h1 := htr i (by omega)
      have h2 := htr (i + 1) (by omega)
      have hi' : i < entries.length := by omega
      have hdrop : entries.drop i = entries.getD i dEvent :: entries.drop (i + 1) := by
        rw [List.getD_eq_getElem entries dEvent hi']
        exact List.drop_eq_getElem_cons hi'
      have hsum : sumMops env (entries.drop i)
          = env.memory_writing_ops (entries.getD i dEvent)
            + sumMops env (entries.drop (i + 1)) := by
        rw [hdrop]
        simp [sumMops]
      rw [hfsnap i (by omega), hfsnap (i + 1) (by omega)]
      constructor
      · show (f (i + 1)).rest_mops ≤ (f i).rest_mops
        rw [h1, h2, hsum]
        omega
      · intro hpos
        show (f (i + 1)).rest_mops < (f i).rest_mops
        rw [h1, h2, hsum]
        omega

/-- Classification functions with zero memory-write count everywhere. -/
def env8 : OpEnv :=
  ⟨fun _ => 0, fun _ => 0, fun _ => false, fun _ => false, fun _ => false, fun _ => false⟩

/-- C8 counterexample.  A step whose opcode writes no memory leaves
`rest_mops` unchanged: on one zero-write step the snapshot and the terminal
value are both 0, so `rest_mops` does not *strictly* decrease across the
fold even though a step was processed. -/
theorem claim8_counterexample :
    (computeRestMopsAndJops false env8 [e5] init5).1 = 0
    ∧ (statusFold false env8 (initFoldState init5 0 0) [e5]).map
        (fun p => ((p.1.getD 0 dStatus).rest_mops, p.2.rest_mops)) = some (0, 0) := by
  refine ⟨by decide, by decide⟩

/-- Witness for C8 (amended) on a one-step slice with one memory write. -/
theorem claim8_witness :
    (computeRestMopsAndJops false env5 [e5] init5).1 = sumMops env5 [e5]
    ∧ (FoldState.rest_mops ⟨0, 0, 0, 0, 0, 0⟩) = 0 := by
  refine ⟨(claim8_rest_mops env5 init5 [e5] (by decide)).1, ?_⟩
  exact ((claim8_rest_mops env5 init5 [e5] (by decide)).2
    [⟨1, 0, 0, 0, 0, 0, 1, 2, 0, 0, 0, 0⟩] ⟨0, 0, 0, 0, 0, 0⟩ (by decide)).2.1

lemma assignStepStatesWhile_eq (capability : Nat) (post : InitializationState) :
    ∀ n, assignStepStatesWhile capability post n = List.replicate (capability - n) post := by
  intro n
  generalize hk : capability - n = k
  induction k generalizing n with
  | zero =>
    unfold assignStepStatesWhile
    rw [if_neg (by omega)]
    rfl
  | succ k ih =>
    unfold assignStepStatesWhile
    rw [if_pos (by omega)]
    rw [ih (n + 1) (by omega)]
    rw [List.replicate_succ]

/-- C9.  For `n` real steps and capacity `c` with `n ≤ c`, the padding phase
writes exactly `c - n` copies of the expected post-checkpoint followed by one
final row holding the same outgoing checkpoint vector. -/
theorem claim9_padding (capability n : Nat) (post : InitializationState)
    (_h : n ≤ capability) :
    assignPaddingAndPostInitializationState capability n post
      = List.replicate (capability - n) post ++ [post]
    ∧ (assignStepStatesWhile capability post n).length = capability - n
    ∧ (∀ x ∈ assignStepStatesWhile capability post n, x = post)
    ∧ (assignPaddingAndPostInitializationState capability n post).length
      = (capability - n) + 1 := by
  have he := assignStepStatesWhile_eq capability post n
  refine ⟨?_, ?_, ?_, ?_⟩
  · show assignStepStatesWhile capability post n ++ [post] = _
    rw [he]
  · rw [he]
    simp
  · intro x hx
    rw [he] at hx
    exact List.eq_of_mem_replicate hx
  · show (assignStepStatesWhile capability post n ++ [post]).length = _
    rw [he]
    simp

/-- Witness for C9: 3 real steps with capacity 8 produce exactly 5 padding
rows (all equal to the post-checkpoint) plus the final row. -/
theorem claim9_witness :
    assignPaddingAndPostInitializationState 8 3 post5
      = List.replicate 5 post5 ++ [post5]
    ∧ (assignStepStatesWhile 8 post5 3).length = 5 := by
  have hth := claim9_padding 8 3 post5 (by omega)
  refine ⟨?_, ?_⟩
  · simpa using hth.1
  · simpa using hth.2.1

/-- Classification functions for the C6 instance: every step is a
host-public-input read, nothing else fires. -/
def env6 : OpEnv :=
  ⟨fun _ => 0, fun _ => 0, fun _ => true, fun _ => false, fun _ => false, fun _ => false⟩

/-- First step of the C6 instance. -/
def e6a : EventTableEntry := ⟨1, 0, 0, 0, 0, 0⟩

/-- Second step of the C6 instance. -/
def e6b : EventTableEntry := ⟨2, 0, 0, 0, 0, 0⟩

/-- Incoming checkpoint of the C6 instance (all counters zero). -/
def init6 : InitializationState := ⟨0, 0, 0, 0, 0, 0, 0, 0, 0, 0, 0, 0⟩

/-- Witness for C6: on a two-step slice where both steps read a host public
input, the second snapshot's cursor equals the incoming value plus the one
firing step before it. -/
theorem claim6_witness :
    (([(⟨1, 0, 0, 0, 0, 0, 0, 0, 0, 0, 0, 0⟩ : Status),
        ⟨2, 0, 0, 0, 0, 0, 0, 0, 1, 0, 0, 0⟩].getD 1 dStatus).host_public_inputs
      = init6.host_public_inputs
        + ([e6a, e6b].take 1).countP env6.is_host_public_input) := by
  exact ((claim6_cursor_tracking true env6 init6 0 0 [e6a, e6b]
    [⟨1, 0, 0, 0, 0, 0, 0, 0, 0, 0, 0, 0⟩, ⟨2, 0, 0, 0, 0, 0, 0, 0, 1, 0, 0, 0⟩]
    ⟨2, 0, 0, 0, 0, 0⟩ (by decide) (by decide) (by decide) (by decide) (by decide)).1 1
    (by decide)).2.1
